import Mathlib

/-!
Verification of the eCFR analysis service (server/app/services/ecfr_service.py).

The Python service is shallowly embedded: dictionaries become records, JSON
trees become inductive types, text becomes lists of characters, upstream HTTP
traffic becomes an explicit environment value, and functions that may raise
become Except-valued functions whose callers handle the error branch the way
the Python try/except blocks do.

Character-class conventions: the regular-expression classes \w and \s of the
Python re module are modelled on the character set this development uses,
namely ASCII plus the two Thai letters that occur literally in the source's
split pattern (both are Unicode word characters) and the section sign, which
is not a word character.
-/

namespace ECFR

/-- Model of the Python regex class \s (whitespace). -/
def isSpace (c : Char) : Bool :=
  c = ' ' || c = '\t' || c = '\n' || c = '\r' || c = '\x0b' || c = '\x0c'

/-- Model of the Python regex class \w (word characters) on the characters used
in this development: ASCII alphanumerics, the underscore, and the two Thai
letters appearing in the source's split pattern (Unicode letters, hence word
characters in Python). -/
def isWord (c : Char) : Bool :=
  c.isAlphanum || c = '_' || c = 'ย' || c = 'ง'

/-- Step function for collapsing whitespace runs, tracking whether the
previous character was whitespace; models re.sub with pattern \s+ and
replacement a single space. -/
def collapseAux : Bool → List Char → List Char
  | _, [] => []
  | prevSpace, c :: rest =>
    if isSpace c then
      if prevSpace then collapseAux true rest
      else ' ' :: collapseAux true rest
    else c :: collapseAux false rest

/-- Model of re.sub replacing every maximal run of whitespace by one space. -/
def collapseWs (l : List Char) : List Char := collapseAux false l

/-- Model of re.sub replacing every character that is neither a word character
nor whitespace by a space. -/
def stripPunct (l : List Char) : List Char :=
  l.map (fun c => if isWord c || isSpace c then c else ' ')

/-- Model of the Python str.strip method: drop leading and trailing
whitespace. -/
def pyStrip (l : List Char) : List Char :=
  ((l.dropWhile isSpace).reverse.dropWhile isSpace).reverse

/-- The content post-processing pipeline of get_full_title_content: collapse
whitespace runs, replace punctuation by spaces, then strip. -/
def cleanContent (l : List Char) : List Char :=
  pyStrip (stripPunct (collapseWs l))

/-- Helper for countWords: counts the starts of maximal word-character runs,
tracking whether the previous character was a word character. -/
def countWordsAux : Bool → List Char → Nat
  | _, [] => 0
  | prevWord, c :: rest =>
    (if isWord c && !prevWord then 1 else 0) + countWordsAux (isWord c) rest

/-- Model of len(re.findall(pattern bw plus wb, text)): the number of maximal
word-character runs. -/
def countWords (l : List Char) : Nat := countWordsAux false l

/-- Lookup in an insertion-ordered association list (a Python dict), with a
default, as in dict.get. -/
def alGet {α : Type} (l : List (String × α)) (k : String) (d : α) : α :=
  match l.find? (fun p => p.1 = k) with
  | some p => p.2
  | none => d

/-- Key-assignment in an insertion-ordered association list (a Python dict):
an existing key keeps its position and gets the new value, a new key is
appended at the end. -/
def alInsert {α : Type} (l : List (String × α)) (k : String) (v : α) : List (String × α) :=
  match l with
  | [] => [(k, v)]
  | p :: rest => if p.1 = k then (k, v) :: rest else p :: alInsert rest k v

/-- Keys of an association list. -/
def alKeys {α : Type} (l : List (String × α)) : List String := l.map Prod.fst

/-- Round half to even on rationals, modelling the Python built-in round to an
integer (the float is idealised as an exact rational). -/
def pyRound (q : ℚ) : ℤ :=
  let f := ⌊q⌋
  let r := q - f
  if r < 1/2 then f else if 1/2 < r then f + 1 else if f % 2 = 0 then f else f + 1

/-- Model of the Python round(x, 2): round half to even at two decimal
places. -/
def round2 (q : ℚ) : ℚ := (pyRound (q * 100) : ℚ) / 100

/-- Model of the Python expression n or 1 for a non-negative integer n: the
falsy value 0 is replaced by 1. -/
def pyOrOne (n : Nat) : Nat := if n = 0 then 1 else n

/-- Average-words-per-section computation of analyze_title. -/
def average_words_per_section (word_count total_sections : Nat) : ℚ :=
  round2 ((word_count : ℚ) / (pyOrOne total_sections : ℚ))

/-- A node of the regulatory hierarchy as served by the structure endpoint.
String-valued fields model dict.get with default the empty string; reserved
models dict.get with default False. -/
inductive StructureNode : Type where
  | mk (type identifier label_description label text content : String)
       (reserved : Bool) (children : List StructureNode)

def StructureNode.type : StructureNode → String
  | .mk ty _ _ _ _ _ _ _ => ty

def StructureNode.identifier : StructureNode → String
  | .mk _ idf _ _ _ _ _ _ => idf

def StructureNode.label_description : StructureNode → String
  | .mk _ _ ld _ _ _ _ _ => ld

def StructureNode.label : StructureNode → String
  | .mk _ _ _ lb _ _ _ _ => lb

def StructureNode.text : StructureNode → String
  | .mk _ _ _ _ tx _ _ _ => tx

def StructureNode.content : StructureNode → String
  | .mk _ _ _ _ _ ct _ _ => ct

def StructureNode.reserved : StructureNode → Bool
  | .mk _ _ _ _ _ _ res _ => res

def StructureNode.children : StructureNode → List StructureNode
  | .mk _ _ _ _ _ _ _ cs => cs

/-- Induction over a structure tree: to prove a property of every node it
suffices to prove it of a node given that it holds of all children. -/
theorem StructureNode.inductionOn (motive : StructureNode → Prop)
    (h : ∀ ty idf ld lb tx ct res cs, (∀ c ∈ cs, motive c) →
      motive (.mk ty idf ld lb tx ct res cs)) :
    ∀ n, motive n := by
  intro n
  refine @StructureNode.rec motive (fun cs => ∀ c ∈ cs, motive c) h ?_ ?_ n
  · intro c hc
    exact absurd hc (List.not_mem_nil c)
  · intro c cs hc hcs d hd
    rcases List.mem_cons.mp hd with h1 | h2
    · exact h1 ▸ hc
    · exact hcs d h2

mutual

/-- The inner count_sections of parse_structure: a non-reserved section counts
as one (without recursing), anything else sums over its children. -/
def count_sections : StructureNode → Nat
  | .mk ty _ _ _ _ _ res cs =>
    if ty = "section" ∧ res = false then 1 else count_sections_list cs

/-- Sum of count_sections over a list of children. -/
def count_sections_list : List StructureNode → Nat
  | [] => 0
  | c :: cs => count_sections c + count_sections_list cs

end

/-- One entry of the parts list produced by get_parts. -/
structure PartEntry : Type where
  number : String
  name : String
  sections : Nat
deriving DecidableEq, Repr

/-- The entry a non-reserved part node contributes. -/
def partEntryOf (n : StructureNode) : PartEntry :=
  ⟨n.identifier, n.label_description, count_sections n⟩

mutual

/-- The inner get_parts of parse_structure: a non-reserved part yields its
singleton entry (without recursing further), anything else concatenates the
results over its children. -/
def get_parts : StructureNode → List PartEntry
  | n@(.mk ty _ _ _ _ _ res cs) =>
    if ty = "part" ∧ res = false then [partEntryOf n] else get_parts_list cs

/-- Concatenation of get_parts over a list of children. -/
def get_parts_list : List StructureNode → List PartEntry
  | [] => []
  | c :: cs => get_parts c ++ get_parts_list cs

end

/-- The flat summary produced by parse_structure. -/
structure ParsedStructure : Type where
  name : String
  parts : List PartEntry
  total_parts : Nat
  total_sections : Nat
deriving DecidableEq, Repr

/-- Model of ECFRService.parse_structure; the Option input models the falsy
check on the raw structure data (None or an empty document). -/
def parse_structure : Option StructureNode → ParsedStructure
  | none => ⟨"", [], 0, 0⟩
  | some sd =>
    let parts := get_parts sd
    { name := sd.label_description
      parts := parts
      total_parts := (parts.filter (fun p => 0 < p.sections)).length
      total_sections := (parts.map PartEntry.sections).sum }

mutual

/-- All nodes of a structure tree, the root included. -/
def subnodes : StructureNode → List StructureNode
  | n@(.mk _ _ _ _ _ _ _ cs) => n :: subnodes_list cs

/-- All nodes of a forest. -/
def subnodes_list : List StructureNode → List StructureNode
  | [] => []
  | c :: cs => subnodes c ++ subnodes_list cs

end

namespace ECFRService

mutual

/-- Node case of the count_sections method of ECFRService: every node of type
section counts, the reserved flag is not consulted. -/
def count_sections_node : StructureNode → Nat
  | .mk ty _ _ _ _ _ _ cs =>
    (if ty = "section" then 1 else 0) + count_sections_nodes cs

/-- Sum of count_sections_node over children. -/
def count_sections_nodes : List StructureNode → Nat
  | [] => 0
  | c :: cs => count_sections_node c + count_sections_nodes cs

end

/-- Model of the count_sections method of ECFRService (used by the historical
aggregator); the Option input models the falsy check on the raw data. -/
def count_sections : Option StructureNode → Nat
  | none => 0
  | some n => count_sections_node n

mutual

/-- Node case of the count_parts method of ECFRService: every node of type
part counts, the reserved flag is not consulted. -/
def count_parts_node : StructureNode → Nat
  | .mk ty _ _ _ _ _ _ cs =>
    (if ty = "part" then 1 else 0) + count_parts_nodes cs

/-- Sum of count_parts_node over children. -/
def count_parts_nodes : List StructureNode → Nat
  | [] => 0
  | c :: cs => count_parts_node c + count_parts_nodes cs

end

/-- Model of the count_parts method of ECFRService. -/
def count_parts : Option StructureNode → Nat
  | none => 0
  | some n => count_parts_node n

end ECFRService


/-! Basic lemmas relating the mutual list recursions to map/sum/append. -/

theorem count_sections_list_eq (cs : List StructureNode) :
    count_sections_list cs = (cs.map count_sections).sum := by
  induction cs with
  | nil => rfl
  | cons c cs ih => simp [count_sections_list, ih]

theorem get_parts_list_eq (cs : List StructureNode) :
    get_parts_list cs = (cs.map get_parts).flatten := by
  induction cs with
  | nil => rfl
  | cons c cs ih => simp [get_parts_list, ih]

theorem subnodes_list_eq (cs : List StructureNode) :
    subnodes_list cs = (cs.map subnodes).flatten := by
  induction cs with
  | nil => rfl
  | cons c cs ih => simp [subnodes_list, ih]

theorem ECFRService.count_sections_nodes_eq (cs : List StructureNode) :
    ECFRService.count_sections_nodes cs = (cs.map ECFRService.count_sections_node).sum := by
  induction cs with
  | nil => rfl
  | cons c cs ih => simp [ECFRService.count_sections_nodes, ih]

theorem ECFRService.count_parts_nodes_eq (cs : List StructureNode) :
    ECFRService.count_parts_nodes cs = (cs.map ECFRService.count_parts_node).sum := by
  induction cs with
  | nil => rfl
  | cons c cs ih => simp [ECFRService.count_parts_nodes, ih]

theorem mem_subnodes_self (n : StructureNode) : n ∈ subnodes n := by
  cases n with
  | mk ty idf ld lb tx ct res cs => exact List.mem_cons_self _ _

theorem mem_subnodes_of_child {c n : StructureNode} (hc : c ∈ n.children) :
    ∀ {m}, m ∈ subnodes c → m ∈ subnodes n := by
  intro m hm
  cases n with
  | mk ty idf ld lb tx ct res cs =>
    simp only [StructureNode.children] at hc
    simp only [subnodes, subnodes_list_eq, List.mem_cons, List.mem_flatten]
    exact Or.inr ⟨subnodes c, List.mem_map_of_mem subnodes hc, hm⟩

/-- Every entry produced by get_parts comes from a non-reserved part node of
the tree. -/
theorem get_parts_mem (t : StructureNode) :
    ∀ p ∈ get_parts t, ∃ n, n ∈ subnodes t ∧ n.type = "part" ∧
      n.reserved = false ∧ p = partEntryOf n := by
  induction t using StructureNode.inductionOn with
  | h ty idf ld lb tx ct res cs ih =>
    intro p hp
    rw [get_parts] at hp
    by_cases hcond : ty = "part" ∧ res = false
    · rw [if_pos hcond] at hp
      rcases List.mem_singleton.mp hp with rfl
      exact ⟨_, mem_subnodes_self _, hcond.1, hcond.2, rfl⟩
    · rw [if_neg hcond, get_parts_list_eq, List.mem_flatten] at hp
      rcases hp with ⟨l, hl, hpl⟩
      rcases List.mem_map.mp hl with ⟨c, hc, rfl⟩
      rcases ih c hc p hpl with ⟨n, hn, h1, h2, h3⟩
      refine ⟨n, mem_subnodes_of_child ?_ hn, h1, h2, h3⟩
      simpa [StructureNode.children] using hc

/-- The inner section counter never exceeds the reserved-blind method counter
on the same tree. -/
theorem count_sections_le_node (t : StructureNode) :
    count_sections t ≤ ECFRService.count_sections_node t := by
  induction t using StructureNode.inductionOn with
  | h ty idf ld lb tx ct res cs ih =>
    rw [count_sections, ECFRService.count_sections_node]
    by_cases hcond : ty = "section" ∧ res = false
    · rw [if_pos hcond, if_pos hcond.1]
      exact Nat.le_add_right 1 _
    · rw [if_neg hcond, count_sections_list_eq, ECFRService.count_sections_nodes_eq]
      calc (cs.map count_sections).sum
          ≤ (cs.map ECFRService.count_sections_node).sum :=
            List.sum_le_sum (fun c hc => ih c hc)
        _ ≤ (if ty = "section" then 1 else 0) + (cs.map ECFRService.count_sections_node).sum :=
            Nat.le_add_left _ _

/-- The section total of the parser never exceeds the method counter. -/
theorem get_parts_sum_le_node (t : StructureNode) :
    ((get_parts t).map PartEntry.sections).sum ≤ ECFRService.count_sections_node t := by
  induction t using StructureNode.inductionOn with
  | h ty idf ld lb tx ct res cs ih =>
    rw [get_parts]
    by_cases hcond : ty = "part" ∧ res = false
    · rw [if_pos hcond]
      simpa [partEntryOf] using count_sections_le_node (.mk ty idf ld lb tx ct res cs)
    · rw [if_neg hcond, ECFRService.count_sections_node, get_parts_list_eq,
        ECFRService.count_sections_nodes_eq]
      refine Nat.le_add_left _ _ |>.trans' ?_
      induction cs with
      | nil => simp
      | cons c cs ihcs =>
        simp only [List.map_cons, List.flatten_cons, List.map_append, List.sum_append,
          List.sum_cons]
        have h1 := ih c (List.mem_cons_self _ _)
        have h2 := ihcs (fun d hd => ih d (List.mem_cons_of_mem _ hd))
        omega


/-- Concrete sample part: two sections, one of them reserved. -/
def samplePart : StructureNode :=
  .mk "part" "100" "Part 100" "" "" "" false
    [.mk "section" "100.1" "" "" "" "" false [],
     .mk "section" "100.2" "" "" "" "" true []]

/-- Concrete sample title tree. -/
def sampleTree : StructureNode :=
  .mk "title" "" "Title One" "" "" "" false [samplePart]

/-- Concrete lone reserved section. -/
def reservedSectionTree : StructureNode :=
  .mk "section" "9" "" "" "" "" true []

/-- Nested non-reserved part inside a non-reserved part. -/
def innerPart : StructureNode :=
  .mk "part" "2" "Inner Part" "" "" "" false
    [.mk "section" "2.1" "" "" "" "" false []]

/-- Outer non-reserved part containing innerPart. -/
def outerPart : StructureNode :=
  .mk "part" "1" "Outer Part" "" "" "" false [innerPart]

/-- C6: parse_structure returns the zero defaults on null input; total_parts
counts exactly the listed parts with positive section count and so is at most
the number of listed parts; total_sections is the sum of the listed parts'
section counts (zero-section parts contributing 0); every listed part comes
from a non-reserved part node; and a reserved section node contributes
nothing of its own to the section count. -/
theorem C6_parse_structure_invariants :
    parse_structure none = ⟨"", [], 0, 0⟩
    ∧ (∀ t, (parse_structure (some t)).total_parts =
        ((parse_structure (some t)).parts.filter (fun p => 0 < p.sections)).length)
    ∧ (∀ t, (parse_structure (some t)).total_parts ≤ (parse_structure (some t)).parts.length)
    ∧ (∀ t, (parse_structure (some t)).total_sections =
        ((parse_structure (some t)).parts.map PartEntry.sections).sum)
    ∧ (∀ t p, p ∈ (parse_structure (some t)).parts →
        ∃ n, n ∈ subnodes t ∧ n.type = "part" ∧ n.reserved = false ∧ p = partEntryOf n)
    ∧ (∀ n : StructureNode, n.type = "section" → n.reserved = true →
        count_sections n = count_sections_list n.children) := by
  refine ⟨rfl, fun t => rfl, fun t => List.length_filter_le _ _, fun t => rfl, ?_, ?_⟩
  · intro t p hp
    exact get_parts_mem t p hp
  · intro n h1 h2
    cases n with
    | mk ty idf ld lb tx ct res cs =>
      simp only [StructureNode.type] at h1
      simp only [StructureNode.reserved] at h2
      rw [count_sections, if_neg (by simp [h1, h2]), StructureNode.children]

/-- Witness for C6: the invariants evaluated on a concrete tree with a part
and on a concrete reserved section. -/
theorem C6_witness :
    (partEntryOf samplePart ∈ (parse_structure (some sampleTree)).parts)
    ∧ (∃ n, n ∈ subnodes sampleTree ∧ n.type = "part" ∧ n.reserved = false ∧
        partEntryOf samplePart = partEntryOf n)
    ∧ reservedSectionTree.type = "section" ∧ reservedSectionTree.reserved = true
    ∧ count_sections reservedSectionTree = count_sections_list reservedSectionTree.children := by
  refine ⟨by decide, ?_, rfl, rfl, ?_⟩
  · exact C6_parse_structure_invariants.2.2.2.2.1 sampleTree (partEntryOf samplePart) (by decide)
  · exact C6_parse_structure_invariants.2.2.2.2.2 reservedSectionTree rfl rfl

/-- C2 counterexample: a non-reserved part nested inside a non-reserved part
is not found by get_parts: on outerPart, which contains the non-reserved
innerPart among its descendants, the resulting parts list holds only the
outer entry and the inner part number 2 does not appear. -/
theorem C2_counterexample :
    innerPart ∈ subnodes outerPart ∧ innerPart.type = "part" ∧ innerPart.reserved = false
    ∧ outerPart.type = "part" ∧ outerPart.reserved = false
    ∧ get_parts outerPart = [partEntryOf outerPart]
    ∧ "2" ∉ (get_parts outerPart).map PartEntry.number := by
  refine ⟨?_, rfl, rfl, rfl, rfl, by decide, by decide⟩
  exact mem_subnodes_of_child (c := innerPart) (n := outerPart)
    (by simp [outerPart, StructureNode.children]) (mem_subnodes_self innerPart)

/-- C2 amended: get_parts stops at the first non-reserved part node: such a
node yields exactly its own singleton entry and its descendants are not
searched, so parts nested under a non-reserved part do not appear; only parts
under reserved parts or non-part containers are reached. -/
theorem C2_get_parts_stops_at_part (n : StructureNode)
    (h1 : n.type = "part") (h2 : n.reserved = false) :
    get_parts n = [partEntryOf n] := by
  cases n with
  | mk ty idf ld lb tx ct res cs =>
    simp only [StructureNode.type] at h1
    simp only [StructureNode.reserved] at h2
    rw [get_parts, if_pos ⟨h1, h2⟩]

/-- Witness for the amended C2 on the concrete outer part. -/
theorem C2_witness :
    outerPart.type = "part" ∧ outerPart.reserved = false ∧
    get_parts outerPart = [partEntryOf outerPart] :=
  ⟨rfl, rfl, C2_get_parts_stops_at_part outerPart rfl rfl⟩

/-- Method counter equals the number of section-typed nodes, reserved or
not. -/
theorem count_sections_node_eq_filter :
    ∀ t, ECFRService.count_sections_node t =
      ((subnodes t).filter (fun n => n.type = "section")).length := by
  intro t
  induction t using StructureNode.inductionOn with
  | h ty idf ld lb tx ct res cs ih =>
    have hlist : ECFRService.count_sections_nodes cs =
        ((subnodes_list cs).filter (fun n => n.type = "section")).length := by
      induction cs with
      | nil => rfl
      | cons c cs' ihcs =>
        rw [ECFRService.count_sections_nodes, subnodes_list, List.filter_append,
          List.length_append, ih c (List.mem_cons_self _ _),
          ihcs (fun d hd => ih d (List.mem_cons_of_mem _ hd))]
    rw [ECFRService.count_sections_node, subnodes, List.filter_cons, hlist]
    by_cases hty : ty = "section"
    · simp [StructureNode.type, hty, Nat.add_comm]
    · simp [StructureNode.type, hty]

/-- Method counter equals the number of part-typed nodes, reserved or not. -/
theorem count_parts_node_eq_filter :
    ∀ t, ECFRService.count_parts_node t =
      ((subnodes t).filter (fun n => n.type = "part")).length := by
  intro t
  induction t using StructureNode.inductionOn with
  | h ty idf ld lb tx ct res cs ih =>
    have hlist : ECFRService.count_parts_nodes cs =
        ((subnodes_list cs).filter (fun n => n.type = "part")).length := by
      induction cs with
      | nil => rfl
      | cons c cs' ihcs =>
        rw [ECFRService.count_parts_nodes, subnodes_list, List.filter_append,
          List.length_append, ih c (List.mem_cons_self _ _),
          ihcs (fun d hd => ih d (List.mem_cons_of_mem _ hd))]
    rw [ECFRService.count_parts_node, subnodes, List.filter_cons, hlist]
    by_cases hty : ty = "part"
    · simp [StructureNode.type, hty, Nat.add_comm]
    · simp [StructureNode.type, hty]

/-- C10: the count_sections and count_parts methods count every node of the
matching type regardless of the reserved flag; therefore the method count of
sections dominates the parser's total_sections on every tree, strictly so on
a concrete tree consisting of one reserved section, so historical counts and
the parser's totals can disagree on the same snapshot. -/
theorem C10_method_counters_reserved_blind :
    (∀ t, ECFRService.count_sections (some t) =
        ((subnodes t).filter (fun n => n.type = "section")).length)
    ∧ (∀ t, ECFRService.count_parts (some t) =
        ((subnodes t).filter (fun n => n.type = "part")).length)
    ∧ (∀ t, (parse_structure (some t)).total_sections ≤ ECFRService.count_sections (some t))
    ∧ (parse_structure (some reservedSectionTree)).total_sections <
        ECFRService.count_sections (some reservedSectionTree) := by
  refine ⟨fun t => count_sections_node_eq_filter t, fun t => count_parts_node_eq_filter t,
    fun t => ?_, by decide⟩
  show ((get_parts t).map PartEntry.sections).sum ≤ ECFRService.count_sections_node t
  exact get_parts_sum_le_node t


/-- Marker test for the split pattern of get_agency_word_counts. The pattern
in source is a lookahead of: any number of newlines, the two Thai letters yo
yak and ngo ngu (the UTF-8 bytes of the section sign decoded as TIS-620),
any whitespace, one or more digits and a period. -/
def markerMatch (l : List Char) : Bool :=
  match l.dropWhile (fun c => c == '\n') with
  | c1 :: c2 :: rest =>
    c1 == 'ย' && c2 == 'ง' &&
      (let l2 := rest.dropWhile (fun c => isSpace c)
       !(l2.takeWhile Char.isDigit).isEmpty &&
         ((l2.dropWhile Char.isDigit).head? == some '.'))
  | _ => false

/-- Marker that the specification words describe: the section sign, optional
whitespace, one or more digits and a period. This definition follows the
spec, not the source, and exists to be compared with markerMatch. -/
def specMarkerMatch (l : List Char) : Bool :=
  match l with
  | c1 :: rest =>
    c1 == '§' &&
      (let l2 := rest.dropWhile (fun c => isSpace c)
       !(l2.takeWhile Char.isDigit).isEmpty &&
         ((l2.dropWhile Char.isDigit).head? == some '.'))
  | _ => false

/-- Model of re.split on a zero-width lookahead pattern: scan left to right,
cut the current piece just before every position where the marker matches,
and resume scanning one character further. -/
def splitAtGo (marker : List Char → Bool) : List Char → List Char → List (List Char)
  | [], cur => [cur.reverse]
  | c :: rest, cur =>
    if marker (c :: rest) then cur.reverse :: splitAtGo marker rest [c]
    else splitAtGo marker rest (c :: cur)

/-- The section split of get_agency_word_counts. -/
def splitSections (l : List Char) : List (List Char) := splitAtGo markerMatch l []

/-- The section split as the specification words it; follows the spec, for
comparison with splitSections. -/
def specSplitSections (l : List Char) : List (List Char) := splitAtGo specMarkerMatch l []

/-- One entry of an agency's cfr_references list. -/
structure CfrRef : Type where
  title : Option Int
deriving DecidableEq, Repr

/-- An agency as served by the agencies endpoint (children are sub-agencies). -/
inductive AgencyJson : Type where
  | mk (name short_name display_name : String) (cfr_references : List CfrRef)
       (children : List AgencyJson)

/-- The value stored per short name by get_agencies. -/
structure AgencyData : Type where
  variations : List String
  name : String
  cfr_references : List CfrRef
deriving DecidableEq, Repr

/-- Default agency record, used only as the never-relevant dict lookup
default. -/
def AgencyData.default : AgencyData := ⟨[], "", []⟩

mutual

/-- Model of the inner process_agency of get_agencies: record the agency
under its short name (variations are its three names), then process the
children in order, threading the insertion-ordered map. -/
def process_agency (m : List (String × AgencyData)) : AgencyJson → List (String × AgencyData)
  | .mk nm sn dn refs cs =>
    process_agency_list (alInsert m sn ⟨[nm, sn, dn], dn, refs⟩) cs

/-- Sequential processing of a list of agencies. -/
def process_agency_list (m : List (String × AgencyData)) :
    List AgencyJson → List (String × AgencyData)
  | [] => m
  | a :: rest => process_agency_list (process_agency m a) rest

end

/-- Outcome of one upstream GET: a response with an HTTP status code and a
decoded body, or a transport failure carrying the exception message. -/
inductive Upstream (α : Type) : Type where
  | resp (status : Nat) (body : α)
  | failed (msg : String)

/-- A fetch attempt that did not come back usable: transport failure, or a
response whose status is not ok (status at least 400, the same statuses for
which raise_for_status raises). -/
def upstreamFails {α : Type} : Upstream α → Prop
  | .resp st _ => 400 ≤ st
  | .failed _ => True

/-- Body of the agencies endpoint. -/
structure AgenciesData : Type where
  agencies : List AgencyJson

/-- Model of ECFRService.get_agencies: build the flattened roster map keyed
by short name; any failure degrades to the empty mapping. -/
def ECFRService.get_agencies : Upstream AgenciesData → List (String × AgencyData)
  | .failed _ => []
  | .resp st body => if st < 400 then process_agency_list [] body.agencies else []

/-- Case-insensitive matching is modelled by lowering pattern and text, as
re.IGNORECASE does for the ASCII texts this development uses. -/
def lowerL (l : List Char) : List Char := l.map Char.toLower

/-- Whether a list starts with a word character. -/
def headIsWord : List Char → Bool
  | [] => false
  | c :: _ => isWord c

/-- Whether a list ends with a word character. -/
def lastIsWord (l : List Char) : Bool := headIsWord l.reverse

/-- Whole-word match of the escaped literal pat at the current position: pat
is a prefix of the remaining text and there is a word boundary on both sides;
prevW says whether the character just before the current position is a word
character. -/
def wwMatchAt (pat : List Char) (prevW : Bool) (text : List Char) : Bool :=
  pat.isPrefixOf text && (prevW != headIsWord pat)
    && (lastIsWord pat != headIsWord (text.drop pat.length))

/-- Scanner for len(re.findall(...)) on a whole-word literal pattern:
non-overlapping matches, scanning left to right. After a match at some
position the next pat.length - 1 positions lie inside the match and are not
new match starts; skip counts those remaining positions, and prevW tracks
whether the previous character is a word character. -/
def countOccGo (pat : List Char) : Bool → Nat → List Char → Nat
  | _, _, [] => 0
  | _, skip + 1, c :: rest => countOccGo pat (isWord c) skip rest
  | prevW, 0, c :: rest =>
    if wwMatchAt pat prevW (c :: rest) then
      1 + countOccGo pat (isWord c) (pat.length - 1) rest
    else countOccGo pat (isWord c) 0 rest

/-- Number of whole-word occurrences of the literal pat in text; the caller
never passes an empty pat (empty variations are skipped). -/
def countOcc (pat text : List Char) : Nat := countOccGo pat false 0 text

/-- Mention count of one agency in one text segment: whole-word,
case-insensitive occurrences summed over its non-empty name variations. -/
def section_mention_count (d : AgencyData) (sec : List Char) : Nat :=
  (d.variations.map (fun v =>
    if v = "" then 0 else countOcc (lowerL v.data) (lowerL sec))).sum

/-- Accumulators of the per-segment loop of get_agency_word_counts: total
mentions per agency and attributed words per agency, both keyed by short
name. -/
structure AttrState : Type where
  agency_mentions : List (String × Nat)
  agency_word_counts : List (String × ℚ)
deriving DecidableEq, Repr

/-- Body of the per-segment loop of get_agency_word_counts: skip blank or
zero-word segments; otherwise count mentions per relevant agency, accumulate
them, and distribute the segment's word count over the mentioned agencies in
proportion to their mention counts. -/
def processSection (relevant : List (String × AgencyData)) (st : AttrState)
    (sec : List Char) : AttrState :=
  if pyStrip sec = [] then st
  else
    let section_words := countWords sec
    if section_words = 0 then st
    else
      let pairs := relevant.foldl
        (fun (acc : List (String × Nat) × List (String × Nat)) p =>
          let mc := section_mention_count p.2 sec
          if 0 < mc then
            (alInsert acc.1 p.1 mc, alInsert acc.2 p.1 (alGet acc.2 p.1 0 + mc))
          else acc)
        ([], st.agency_mentions)
      let section_mentions := pairs.1
      let awc :=
        if section_mentions = [] then st.agency_word_counts
        else
          let tot := (section_mentions.map Prod.snd).sum
          section_mentions.foldl
            (fun aw q => alInsert aw q.1
              (alGet aw q.1 0 + (q.2 : ℚ) / (tot : ℚ) * (section_words : ℚ)))
            st.agency_word_counts
      ⟨pairs.2, awc⟩

/-- Model of ECFRService.get_agency_word_counts: fetch the roster, keep the
agencies referencing this title, split the content into segments, accumulate
proportional word attributions per segment, and key the rounded results by
display name, keeping only agencies that were mentioned. -/
def ECFRService.get_agency_word_counts (agenciesResp : Upstream AgenciesData)
    (title_number : Int) (content : List Char) : List (String × Int) :=
  let agencies := ECFRService.get_agencies agenciesResp
  if content = [] ∨ agencies = [] then []
  else
    let relevant := agencies.filter
      (fun p => p.2.cfr_references.any (fun r => r.title == some title_number))
    let final := (splitSections content).foldl (processSection relevant) ⟨[], []⟩
    final.agency_mentions.foldl
      (fun fc q =>
        if 0 < q.2 then
          alInsert fc (alGet agencies q.1 AgencyData.default).name
            (pyRound (alGet final.agency_word_counts q.1 0))
        else fc) []


/-- The head surviving dropWhile falsifies the predicate. -/
theorem head?_dropWhile_false {p : Char → Bool} {l : List Char} {c : Char}
    (h : (l.dropWhile p).head? = some c) : p c = false := by
  induction l with
  | nil => simp [List.dropWhile] at h
  | cons a l ih =>
    rw [List.dropWhile] at h
    cases hp : p a
    · rw [hp] at h
      have hac : a = c := by simpa using h
      rw [← hac]
      exact hp
    · rw [hp] at h
      exact ih h

/-- Members of dropWhile are members of the list. -/
theorem mem_of_mem_dropWhile {p : Char → Bool} {l : List Char} {c : Char}
    (h : c ∈ l.dropWhile p) : c ∈ l :=
  (List.dropWhile_sublist p).mem h

/-- A list matching the split marker must contain a period. -/
theorem markerMatch_mem_dot {l : List Char} (h : markerMatch l = true) : '.' ∈ l := by
  unfold markerMatch at h
  split at h
  case h_1 c1 c2 rest heq =>
    simp only [Bool.and_eq_true, beq_iff_eq] at h
    have hdot := h.2.2
    set l2 := rest.dropWhile (fun c => isSpace c) with hl2
    have hmem : ('.' : Char) ∈ l2.dropWhile Char.isDigit := by
      cases hh : (l2.dropWhile Char.isDigit) with
      | nil => rw [hh] at hdot; simp at hdot
      | cons a as =>
        rw [hh] at hdot
        simp only [List.head?, Option.some.injEq, beq_iff_eq] at hdot
        rw [hdot]
        exact List.mem_cons_self _ _
    have h1 : ('.' : Char) ∈ rest := mem_of_mem_dropWhile (mem_of_mem_dropWhile hmem)
    have h2 : ('.' : Char) ∈ l.dropWhile (fun c => c == '\n') := by
      rw [heq]
      exact List.mem_cons_of_mem _ (List.mem_cons_of_mem _ h1)
    exact mem_of_mem_dropWhile h2
  case h_2 => exact absurd h (by simp)

/-- On text made only of word characters and plain spaces, such as normalized
content, the split marker never matches: both the period and the newline it
needs were replaced during normalization. -/
theorem markerMatch_false_of_clean {l : List Char}
    (hl : ∀ c ∈ l, isWord c = true ∨ c = ' ') : markerMatch l = false := by
  by_contra hcon
  have h : markerMatch l = true := by
    cases hml : markerMatch l
    · exact absurd hml hcon
    · rfl
  rcases hl '.' (markerMatch_mem_dot h) with hw | hs
  · exact absurd hw (by decide)
  · exact absurd hs (by decide)

/-- If the marker matches no suffix, the split returns one piece. -/
theorem splitAtGo_no_marker (marker : List Char → Bool) :
    ∀ l cur, (∀ c rest, ((c :: rest) <:+ l) → marker (c :: rest) = false) →
      splitAtGo marker l cur = [cur.reverse ++ l] := by
  intro l
  induction l with
  | nil => intro cur h; simp [splitAtGo]
  | cons c rest ih =>
    intro cur h
    rw [splitAtGo, if_neg (by rw [h c rest (List.suffix_refl _)]; simp),
      ih (c :: cur) (fun d ds hds => h d ds (hds.trans (List.suffix_cons c rest)))]
    simp

/-- Characters of collapsed text that are whitespace are the plain space. -/
theorem collapseAux_space_char {b : Bool} {l : List Char} :
    ∀ c ∈ collapseAux b l, isSpace c = true → c = ' ' := by
  induction l generalizing b with
  | nil => intro c hc; simp [collapseAux] at hc
  | cons a l ih =>
    intro c hc hsp
    rw [collapseAux] at hc
    by_cases ha : isSpace a
    · rw [if_pos ha] at hc
      by_cases hb : b
      · rw [if_pos hb] at hc
        exact ih c hc hsp
      · rw [if_neg hb] at hc
        rcases List.mem_cons.mp hc with h1 | h2
        · exact h1
        · exact ih c h2 hsp
    · rw [if_neg ha] at hc
      rcases List.mem_cons.mp hc with h1 | h2
      · exact absurd (h1 ▸ hsp) (by simpa using ha)
      · exact ih c h2 hsp

/-- Every character of the normalized content is a word character or a plain
space: whitespace runs were collapsed to single spaces first, then every
remaining non-word non-space character was replaced by a space. -/
theorem cleanContent_chars (l : List Char) :
    ∀ c ∈ cleanContent l, isWord c = true ∨ c = ' ' := by
  intro c hc
  have hc2 : c ∈ stripPunct (collapseWs l) := by
    unfold cleanContent pyStrip at hc
    have h1 := List.mem_reverse.mp hc
    have h2 := mem_of_mem_dropWhile h1
    have h3 := List.mem_reverse.mp h2
    exact mem_of_mem_dropWhile h3
  rcases List.mem_map.mp hc2 with ⟨d, hd, hdc⟩
  by_cases hw : isWord d
  · rw [if_pos (by simp [hw])] at hdc
    exact Or.inl (hdc ▸ hw)
  · by_cases hs : isSpace d
    · rw [if_pos (by simp [hs])] at hdc
      exact Or.inr (hdc ▸ collapseAux_space_char d hd hs)
    · rw [if_neg (by simp [hw, hs])] at hdc
      exact Or.inr hdc.symm


/-- C8 counterexample: the code does not split at an actual section-sign
marker. On content containing the section marker of the spec the
source-derived split keeps one segment, while the split the specification
describes cuts before the marker. -/
theorem C8_counterexample :
    splitSections ("alpha § 1. beta".data) = ["alpha § 1. beta".data]
    ∧ specSplitSections ("alpha § 1. beta".data) = ["alpha ".data, "§ 1. beta".data]
    ∧ splitSections ("alpha § 1. beta".data) ≠ specSplitSections ("alpha § 1. beta".data) :=
  ⟨by decide, by decide, by decide⟩

/-- C8 amended: the split cuts before occurrences of the mojibake marker (the
Thai letter pair arising from reading the UTF-8 bytes of the section sign as
TIS-620, then optional whitespace, digits and a period), never before actual
section-sign markers; on normalized content, which consists of word
characters and spaces only, no marker can occur, so the whole content is one
segment; and zero-word segments are skipped, leaving every accumulator
unchanged. -/
theorem C8_split_behaviour :
    (∀ l, splitSections (cleanContent l) = [cleanContent l])
    ∧ (∀ relevant st sec, countWords sec = 0 → processSection relevant st sec = st)
    ∧ splitSections ("a ยง 12. b".data) = ["a ".data, "ยง 12. b".data] := by
  refine ⟨fun l => ?_, fun relevant st sec h => ?_, by decide⟩
  · have h := splitAtGo_no_marker markerMatch (cleanContent l) []
      (fun c rest hsuf => markerMatch_false_of_clean
        (fun d hd => cleanContent_chars l d (hsuf.sublist.mem hd)))
    simpa [splitSections] using h
  · rw [processSection]
    by_cases hstrip : pyStrip sec = []
    · rw [if_pos hstrip]
    · rw [if_neg hstrip]
      simp [h]

/-- Witness for the amended C8: one blank-free zero-word check and the
single-segment property evaluated on concrete normalized content. -/
theorem C8_witness :
    (∀ c ∈ ("some normalized content".data), isWord c = true ∨ c = ' ')
    ∧ splitSections (cleanContent ("some normalized content".data))
        = [cleanContent ("some normalized content".data)]
    ∧ countWords ("   ".data) = 0
    ∧ processSection [] ⟨[], []⟩ ("   ".data) = ⟨[], []⟩ :=
  ⟨by decide, C8_split_behaviour.1 ("some normalized content".data),
    by decide, C8_split_behaviour.2.1 [] ⟨[], []⟩ ("   ".data) (by decide)⟩


/-- No two adjacent whitespace characters. -/
def noTwoSpaces (l : List Char) : Prop :=
  List.Chain' (fun a b => ¬(isSpace a = true ∧ isSpace b = true)) l

/-- Whitespace characters are not word characters. -/
theorem isSpace_isWord_false {c : Char} (hs : isSpace c = true) : isWord c = false := by
  simp only [isSpace, Bool.or_eq_true, decide_eq_true_eq] at hs
  rcases hs with ((((h | h) | h) | h) | h) | h <;> subst h <;> decide

/-- After a collapsed whitespace run the next emitted character is not
whitespace. -/
theorem collapseAux_head_not_space :
    ∀ (l : List Char) (c : Char), (collapseAux true l).head? = some c → isSpace c = false := by
  intro l
  induction l with
  | nil => intro c h; simp [collapseAux] at h
  | cons a rest ih =>
    intro c h
    rw [collapseAux] at h
    by_cases ha : isSpace a
    · rw [if_pos ha, if_pos rfl] at h
      exact ih c h
    · rw [if_neg ha] at h
      simp only [List.head?, Option.some.injEq] at h
      rw [← h]
      simpa using ha

/-- Collapsed text has no two adjacent whitespace characters. -/
theorem collapseAux_chain : ∀ (b : Bool) (l : List Char), noTwoSpaces (collapseAux b l) := by
  intro b l
  induction l generalizing b with
  | nil => simp [collapseAux, noTwoSpaces]
  | cons a rest ih =>
    rw [collapseAux]
    by_cases ha : isSpace a
    · rw [if_pos ha]
      by_cases hb : b
      · rw [if_pos hb]
        exact ih true
      · rw [if_neg hb]
        refine List.chain'_cons'.mpr ⟨?_, ih true⟩
        intro d hd hcon
        exact absurd hcon.2 (by simp [collapseAux_head_not_space rest d hd])
    · rw [if_neg ha]
      refine List.chain'_cons'.mpr ⟨?_, ih false⟩
      intro d hd hcon
      exact absurd hcon.1 (by simpa using ha)

/-- Characters of collapsed text are spaces or characters of the input. -/
theorem collapseAux_mem {b : Bool} {l : List Char} :
    ∀ c ∈ collapseAux b l, c = ' ' ∨ c ∈ l := by
  induction l generalizing b with
  | nil => intro c hc; simp [collapseAux] at hc
  | cons a rest ih =>
    intro c hc
    rw [collapseAux] at hc
    by_cases ha : isSpace a
    · rw [if_pos ha] at hc
      by_cases hb : b
      · rw [if_pos hb] at hc
        rcases ih c hc with h | h
        · exact Or.inl h
        · exact Or.inr (List.mem_cons_of_mem _ h)
      · rw [if_neg hb] at hc
        rcases List.mem_cons.mp hc with h | h
        · exact Or.inl h
        · rcases ih c h with h2 | h2
          · exact Or.inl h2
          · exact Or.inr (List.mem_cons_of_mem _ h2)
    · rw [if_neg ha] at hc
      rcases List.mem_cons.mp hc with h | h
      · exact Or.inr (h ▸ List.mem_cons_self _ _)
      · rcases ih c h with h2 | h2
        · exact Or.inl h2
        · exact Or.inr (List.mem_cons_of_mem _ h2)

/-- Members of the stripped list are members of the list. -/
theorem pyStrip_subset {l : List Char} : ∀ c ∈ pyStrip l, c ∈ l := by
  intro c hc
  unfold pyStrip at hc
  have h1 := List.mem_reverse.mp hc
  have h2 := mem_of_mem_dropWhile h1
  have h3 := List.mem_reverse.mp h2
  exact mem_of_mem_dropWhile h3

/-- The no-two-spaces property survives dropWhile. -/
theorem noTwoSpaces_dropWhile {p : Char → Bool} {l : List Char}
    (h : noTwoSpaces l) : noTwoSpaces (l.dropWhile p) := by
  induction l with
  | nil => simp [List.dropWhile, noTwoSpaces]
  | cons a rest ih =>
    rw [List.dropWhile]
    cases hp : p a
    · exact h
    · exact ih h.tail

/-- The no-two-spaces property survives reversal. -/
theorem noTwoSpaces_reverse {l : List Char} (h : noTwoSpaces l) : noTwoSpaces l.reverse := by
  rw [noTwoSpaces, List.chain'_reverse]
  exact List.Chain'.imp (fun a b hab hcon => hab ⟨hcon.2, hcon.1⟩) h

/-- The no-two-spaces property survives stripping. -/
theorem noTwoSpaces_pyStrip {l : List Char} (h : noTwoSpaces l) : noTwoSpaces (pyStrip l) :=
  noTwoSpaces_reverse (noTwoSpaces_dropWhile (noTwoSpaces_reverse (noTwoSpaces_dropWhile h)))

/-- A list whose head falsifies the predicate is unchanged by dropWhile. -/
theorem dropWhile_eq_self_of_head {p : Char → Bool} {l : List Char}
    (h : ∀ c, l.head? = some c → p c = false) : l.dropWhile p = l := by
  cases l with
  | nil => rfl
  | cons a rest =>
    rw [List.dropWhile, h a rfl]

/-- Collapsing is the identity on text whose whitespace is single plain
spaces. -/
theorem collapseAux_eq_self {l : List Char}
    (hsp : ∀ c ∈ l, isSpace c = true → c = ' ') (hch : noTwoSpaces l) :
    collapseAux false l = l ∧
      ((∀ c, l.head? = some c → isSpace c = false) → collapseAux true l = l) := by
  induction l with
  | nil => exact ⟨rfl, fun _ => rfl⟩
  | cons a rest ih =>
    have ihrest := ih (fun c hc => hsp c (List.mem_cons_of_mem _ hc)) hch.tail
    by_cases ha : isSpace a
    · have ha' : a = ' ' := hsp a (List.mem_cons_self _ _) ha
      have hhead : ∀ c, rest.head? = some c → isSpace c = false := by
        intro c hc
        have := (List.chain'_cons'.mp hch).1 c hc
        cases hrc : isSpace c
        · rfl
        · exact absurd ⟨ha, hrc⟩ this
      constructor
      · rw [collapseAux, if_pos ha, if_neg (by simp), ihrest.2 hhead, ha']
      · intro hhd
        exact absurd (hhd a rfl) (by simpa using ha)
    · constructor
      · rw [collapseAux, if_neg ha, ihrest.1]
      · intro _
        rw [collapseAux, if_neg ha, ihrest.1]

/-- Punctuation replacement is the identity on word-or-space text. -/
theorem stripPunct_eq_self {l : List Char}
    (hl : ∀ c ∈ l, isWord c = true ∨ c = ' ') : stripPunct l = l := by
  unfold stripPunct
  induction l with
  | nil => rfl
  | cons a rest ih =>
    rw [List.map_cons, ih (fun c hc => hl c (List.mem_cons_of_mem _ hc))]
    rcases hl a (List.mem_cons_self _ _) with hw | hs
    · rw [if_pos (by simp [hw])]
    · subst hs
      rw [if_pos (by decide)]

/-- Stripping is the identity when head and last are not whitespace. -/
theorem pyStrip_eq_self {l : List Char}
    (hhd : ∀ c, l.head? = some c → isSpace c = false)
    (hlast : ∀ c, l.getLast? = some c → isSpace c = false) : pyStrip l = l := by
  unfold pyStrip
  rw [dropWhile_eq_self_of_head hhd]
  rw [dropWhile_eq_self_of_head (fun c hc => hlast c ((List.head?_reverse l) ▸ hc))]
  exact List.reverse_reverse l

/-- The head of stripped text is not whitespace. -/
theorem pyStrip_head_not_space {l : List Char} :
    ∀ c, (pyStrip l).head? = some c → isSpace c = false := by
  intro c hc
  unfold pyStrip at hc
  rw [List.head?_reverse] at hc
  set m1r := (l.dropWhile isSpace).reverse with hm1r
  set m2 := m1r.dropWhile isSpace with hm2
  have hne : m2 ≠ [] := by
    intro hnil
    rw [hnil] at hc
    simp at hc
  rcases (List.dropWhile_suffix isSpace : m1r.dropWhile isSpace <:+ m1r) with ⟨t, ht⟩
  have : m1r.getLast? = m2.getLast? := by
    rw [← ht]
    exact List.getLast?_append_of_ne_nil t hne
  rw [← this, hm1r, List.getLast?_reverse] at hc
  exact head?_dropWhile_false hc

/-- The last character of stripped text is not whitespace. -/
theorem pyStrip_getLast_not_space {l : List Char} :
    ∀ c, (pyStrip l).getLast? = some c → isSpace c = false := by
  intro c hc
  unfold pyStrip at hc
  rw [List.getLast?_reverse] at hc
  exact head?_dropWhile_false hc


/-- The pipeline is the identity once its input is made of word characters
and plain spaces with no doubled whitespace and no leading or trailing
whitespace. -/
theorem cleanContent_eq_self {l : List Char}
    (hch : ∀ c ∈ l, isWord c = true ∨ c = ' ')
    (hnts : noTwoSpaces l)
    (hhd : ∀ c, l.head? = some c → isSpace c = false)
    (hlast : ∀ c, l.getLast? = some c → isSpace c = false) :
    cleanContent l = l := by
  have hsp : ∀ c ∈ l, isSpace c = true → c = ' ' := by
    intro c hc hs
    rcases hch c hc with hw | hw
    · exact absurd (isSpace_isWord_false hs) (by simp [hw])
    · exact hw
  unfold cleanContent collapseWs
  rw [(collapseAux_eq_self hsp hnts).1, stripPunct_eq_self hch, pyStrip_eq_self hhd hlast]

/-- One pipeline pass over word-or-space text already yields a fixed point. -/
theorem cleanContent_idem_of_clean {l : List Char}
    (hl : ∀ c ∈ l, isWord c = true ∨ c = ' ') :
    cleanContent (cleanContent l) = cleanContent l := by
  have hm_chars : ∀ c ∈ collapseWs l, isWord c = true ∨ c = ' ' := by
    intro c hc
    rcases collapseAux_mem c hc with h | h
    · exact Or.inr h
    · exact hl c h
  have hstrip : stripPunct (collapseWs l) = collapseWs l := stripPunct_eq_self hm_chars
  have hclean : cleanContent l = pyStrip (collapseWs l) := by
    unfold cleanContent
    rw [hstrip]
  rw [hclean]
  apply cleanContent_eq_self
  · intro c hc
    exact hm_chars c (pyStrip_subset c hc)
  · exact noTwoSpaces_pyStrip (collapseAux_chain false l)
  · exact fun c hc => pyStrip_head_not_space c hc
  · exact fun c hc => pyStrip_getLast_not_space c hc

/-- C5 counterexample: the pipeline is not idempotent. On the document text
made of the four characters a period comma b, one pass yields the letter a,
two spaces and the letter b (the punctuation was replaced by spaces only
after whitespace runs had been collapsed), and a second pass collapses the
double space. -/
theorem C5_counterexample :
    cleanContent (cleanContent ("a.,b".data)) ≠ cleanContent ("a.,b".data) := by decide

/-- C5 amended: the pipeline is idempotent on word-or-space text, in
particular on anything it produced from a punctuation-free document, and in
general it stabilises after two applications: a third pass yields exactly the
output of the second. A single application need not be a fixed point because
punctuation is replaced by spaces only after whitespace runs are collapsed,
which can leave doubled spaces. -/
theorem C5_normalization_stable :
    (∀ l, (∀ c ∈ l, isWord c = true ∨ c = ' ') →
      cleanContent (cleanContent l) = cleanContent l)
    ∧ (∀ s, cleanContent (cleanContent (cleanContent s)) = cleanContent (cleanContent s)) :=
  ⟨fun _ hl => cleanContent_idem_of_clean hl,
    fun s => cleanContent_idem_of_clean (cleanContent_chars s)⟩

/-- Witness for the amended C5 on concrete word-or-space text with a doubled
space. -/
theorem C5_witness :
    (∀ c ∈ ("a  b".data), isWord c = true ∨ c = ' ')
    ∧ cleanContent (cleanContent ("a  b".data)) = cleanContent ("a  b".data) :=
  ⟨by decide, C5_normalization_stable.1 ("a  b".data) (by decide)⟩


/-- Induction over the agency roster tree. -/
theorem AgencyJson.rosterInductionOn (motive : AgencyJson → Prop)
    (h : ∀ nm sn dn refs cs, (∀ c ∈ cs, motive c) → motive (.mk nm sn dn refs cs)) :
    ∀ a, motive a := by
  intro a
  refine @AgencyJson.rec motive (fun cs => ∀ c ∈ cs, motive c) h ?_ ?_ a
  · intro c hc
    exact absurd hc (List.not_mem_nil c)
  · intro c cs hc hcs d hd
    rcases List.mem_cons.mp hd with h1 | h2
    · exact h1 ▸ hc
    · exact hcs d h2

/-- Inserting a fresh key appends. -/
theorem alInsert_not_mem {α : Type} {l : List (String × α)} {k : String} (v : α)
    (h : k ∉ alKeys l) : alInsert l k v = l ++ [(k, v)] := by
  induction l with
  | nil => rfl
  | cons p rest ih =>
    have hpk : ¬p.1 = k := by
      intro hpk
      exact h (by rw [alKeys, List.map_cons, ← hpk]; exact List.mem_cons_self _ _)
    rw [alInsert, if_neg hpk, ih (fun hk => h (List.mem_cons_of_mem _ hk))]
    rfl

/-- Lookup after insertion at the same key. -/
theorem alGet_alInsert_self {α : Type} (l : List (String × α)) (k : String) (v : α) (d : α) :
    alGet (alInsert l k v) k d = v := by
  induction l with
  | nil => simp [alInsert, alGet, List.find?]
  | cons p rest ih =>
    rw [alInsert]
    by_cases hpk : p.1 = k
    · rw [if_pos hpk]
      simp [alGet, List.find?]
    · rw [if_neg hpk]
      rw [alGet, List.find?, decide_eq_false hpk]
      exact ih

/-- Lookup after insertion at a different key. -/
theorem alGet_alInsert_ne {α : Type} (l : List (String × α)) {k k' : String} (v : α) (d : α)
    (h : k' ≠ k) : alGet (alInsert l k v) k' d = alGet l k' d := by
  have hkk : (decide (k = k')) = false := decide_eq_false (Ne.symm h)
  induction l with
  | nil =>
    show alGet [(k, v)] k' d = alGet [] k' d
    rw [alGet, alGet, List.find?, List.find?, hkk]
    simp
  | cons p rest ih =>
    rw [alInsert]
    by_cases hpk : p.1 = k
    · rw [if_pos hpk]
      have hpk' : (decide (p.1 = k')) = false := by rw [hpk]; exact hkk
      rw [alGet, List.find?, alGet, List.find?, hkk, hpk']
    · rw [if_neg hpk]
      rw [alGet, List.find?]
      by_cases hpk' : p.1 = k'
      · rw [decide_eq_true hpk', alGet, List.find?, decide_eq_true hpk']
      · rw [decide_eq_false hpk', alGet, List.find?, decide_eq_false hpk']
        exact ih

/-- Keys after insertion come from the old keys or are the inserted key. -/
theorem alKeys_alInsert_subset {α : Type} {l : List (String × α)} {k k' : String} {v : α}
    (h : k' ∈ alKeys (alInsert l k v)) : k' ∈ alKeys l ∨ k' = k := by
  induction l with
  | nil => simp [alInsert, alKeys] at h; exact Or.inr h
  | cons p rest ih =>
    rw [alInsert] at h
    by_cases hpk : p.1 = k
    · rw [if_pos hpk] at h
      rcases List.mem_cons.mp h with h1 | h2
      · exact Or.inr h1
      · exact Or.inl (List.mem_cons_of_mem _ h2)
    · rw [if_neg hpk] at h
      rcases List.mem_cons.mp h with h1 | h2
      · exact Or.inl (h1 ▸ List.mem_cons_self _ _)
      · rcases ih h2 with h3 | h3
        · exact Or.inl (List.mem_cons_of_mem _ h3)
        · exact Or.inr h3

/-- Insertion preserves distinctness of keys. -/
theorem alKeys_nodup_alInsert {α : Type} {l : List (String × α)} (k : String) (v : α)
    (h : (alKeys l).Nodup) : (alKeys (alInsert l k v)).Nodup := by
  induction l with
  | nil => simp [alInsert, alKeys]
  | cons p rest ih =>
    rw [alInsert]
    by_cases hpk : p.1 = k
    · rw [if_pos hpk]
      simpa [alKeys, hpk] using h
    · rw [if_neg hpk]
      rw [alKeys, List.map_cons, List.nodup_cons]
      rw [alKeys, List.map_cons, List.nodup_cons] at h
      refine ⟨fun hmem => ?_, ih h.2⟩
      rcases alKeys_alInsert_subset hmem with h1 | h1
      · exact h.1 h1
      · exact hpk h1

/-- A present key looks up to a pair of the list. -/
theorem alGet_mem {α : Type} {l : List (String × α)} {k : String} (d : α)
    (h : k ∈ alKeys l) : (k, alGet l k d) ∈ l := by
  induction l with
  | nil => simp [alKeys] at h
  | cons p rest ih =>
    by_cases hpk : p.1 = k
    · rw [alGet, List.find?, decide_eq_true hpk]
      exact (show (k, p.2) = p from by rw [← hpk]) ▸ List.mem_cons_self _ _
    · rw [alGet, List.find?, decide_eq_false hpk]
      have hk : k ∈ alKeys rest := by
        rcases List.mem_cons.mp h with h1 | h2
        · exact absurd h1.symm hpk
        · exact h2
      exact List.mem_cons_of_mem _ (ih hk)

/-- With distinct keys, lookup returns the value of any member pair. -/
theorem alGet_of_mem_nodup {α : Type} {l : List (String × α)} {k : String} {v : α} (d : α)
    (hnd : (alKeys l).Nodup) (h : (k, v) ∈ l) : alGet l k d = v := by
  induction l with
  | nil => simp at h
  | cons p rest ih =>
    rw [alKeys, List.map_cons, List.nodup_cons] at hnd
    rcases List.mem_cons.mp h with h1 | h2
    · rw [alGet, List.find?, decide_eq_true (show p.1 = k from by rw [← h1])]
      simp [← h1]
    · have hpk : p.1 ≠ k := by
        intro hpk
        exact hnd.1 (hpk ▸ List.mem_map_of_mem Prod.fst h2)
      rw [alGet, List.find?, decide_eq_false hpk]
      exact ih hnd.2 h2


/-- The pair a mentioned agency contributes to the per-segment mention map. -/
def mentionPair (sec : List Char) (p : String × AgencyData) : Option (String × Nat) :=
  if 0 < section_mention_count p.2 sec then some (p.1, section_mention_count p.2 sec) else none

/-- Sum of mentions over all agencies mentioned in a segment. -/
def total_section_mentions (relevant : List (String × AgencyData)) (sec : List Char) : Nat :=
  ((relevant.filterMap (mentionPair sec)).map Prod.snd).sum

/-- The accumulator pair of the per-segment loop splits into two independent
folds, one per component. -/
theorem processSection_fold_split (sec : List Char) :
    ∀ (rel : List (String × AgencyData)) (a b : List (String × Nat)),
      rel.foldl (fun (acc : List (String × Nat) × List (String × Nat)) p =>
          let mc := section_mention_count p.2 sec
          if 0 < mc then
            (alInsert acc.1 p.1 mc, alInsert acc.2 p.1 (alGet acc.2 p.1 0 + mc))
          else acc) (a, b)
        = (rel.foldl (fun x p =>
            if 0 < section_mention_count p.2 sec
            then alInsert x p.1 (section_mention_count p.2 sec) else x) a,
           rel.foldl (fun y p =>
            if 0 < section_mention_count p.2 sec
            then alInsert y p.1 (alGet y p.1 0 + section_mention_count p.2 sec) else y) b) := by
  intro rel
  induction rel with
  | nil => intro a b; rfl
  | cons p rest ih =>
    intro a b
    simp only [List.foldl_cons]
    by_cases hc : 0 < section_mention_count p.2 sec
    · simp only [if_pos hc]
      exact ih _ _
    · simp only [if_neg hc]
      exact ih _ _

/-- The per-segment mention map is the list of positive mention pairs in
roster order, built behind any accumulator with disjoint keys. -/
theorem fold1_eq (sec : List Char) :
    ∀ (rel : List (String × AgencyData)) (acc : List (String × Nat)),
      ((rel.map Prod.fst).Nodup) → (∀ p ∈ rel, p.1 ∉ alKeys acc) →
      rel.foldl (fun x p =>
          if 0 < section_mention_count p.2 sec
          then alInsert x p.1 (section_mention_count p.2 sec) else x) acc
        = acc ++ rel.filterMap (mentionPair sec) := by
  intro rel
  induction rel with
  | nil => intro acc _ _; simp
  | cons p rest ih =>
    intro acc hnd hdisj
    rw [List.map_cons, List.nodup_cons] at hnd
    rw [List.foldl_cons, List.filterMap_cons]
    by_cases hc : 0 < section_mention_count p.2 sec
    · have hmp : mentionPair sec p = some (p.1, section_mention_count p.2 sec) := by
        rw [mentionPair, if_pos hc]
      have hdisj2 : ∀ q ∈ rest, q.1 ∉ alKeys (acc ++ [(p.1, section_mention_count p.2 sec)]) := by
        intro q hq hqmem
        rw [alKeys, List.map_append] at hqmem
        rcases List.mem_append.mp hqmem with h1 | h1
        · exact hdisj q (List.mem_cons_of_mem _ hq) h1
        · simp only [List.map_cons, List.map_nil, List.mem_singleton] at h1
          exact hnd.1 (h1 ▸ List.mem_map_of_mem Prod.fst hq)
      rw [if_pos hc, alInsert_not_mem _ (hdisj p (List.mem_cons_self _ _)),
        ih (acc ++ [(p.1, section_mention_count p.2 sec)]) hnd.2 hdisj2, hmp]
      simp
    · have hmp : mentionPair sec p = none := by rw [mentionPair, if_neg hc]
      rw [if_neg hc, hmp, ih acc hnd.2 (fun q hq => hdisj q (List.mem_cons_of_mem _ hq))]

/-- Keys of the per-segment mention map form a sublist of the roster keys. -/
theorem mentionPair_keys_sublist (sec : List Char) :
    ∀ rel : List (String × AgencyData),
      List.Sublist ((rel.filterMap (mentionPair sec)).map Prod.fst) (rel.map Prod.fst) := by
  intro rel
  induction rel with
  | nil => simp
  | cons p rest ih =>
    rw [List.filterMap_cons]
    by_cases hc : 0 < section_mention_count p.2 sec
    · rw [show mentionPair sec p = some (p.1, section_mention_count p.2 sec) from by
        rw [mentionPair, if_pos hc]]
      rw [List.map_cons, List.map_cons]
      exact List.Sublist.cons₂ _ ih
    · rw [show mentionPair sec p = none from by rw [mentionPair, if_neg hc], List.map_cons]
      exact List.Sublist.cons _ ih

/-- Folding word attributions over pairs whose keys avoid k leaves the value
at k unchanged. -/
theorem foldl_awc_constant (f : String × Nat → ℚ) :
    ∀ (pairs : List (String × Nat)) (init : List (String × ℚ)) (k : String),
      (∀ q ∈ pairs, q.1 ≠ k) →
      alGet (pairs.foldl (fun aw q => alInsert aw q.1 (alGet aw q.1 0 + f q)) init) k 0
        = alGet init k 0 := by
  intro pairs
  induction pairs with
  | nil => intro init k _; rfl
  | cons q rest ih =>
    intro init k h
    rw [List.foldl_cons, ih _ _ (fun r hr => h r (List.mem_cons_of_mem _ hr)),
      alGet_alInsert_ne _ _ _ (fun hkq => h q (List.mem_cons_self _ _) hkq.symm)]

/-- Folding word attributions over pairs with distinct keys adds exactly one
increment at each present key. -/
theorem foldl_awc_get (f : String × Nat → ℚ) :
    ∀ (pairs : List (String × Nat)) (init : List (String × ℚ)) (k : String) (m : Nat),
      ((pairs.map Prod.fst).Nodup) → (k, m) ∈ pairs →
      alGet (pairs.foldl (fun aw q => alInsert aw q.1 (alGet aw q.1 0 + f q)) init) k 0
        = alGet init k 0 + f (k, m) := by
  intro pairs
  induction pairs with
  | nil => intro _ _ _ _ h; simp at h
  | cons q rest ih =>
    intro init k m hnd hmem
    rw [List.map_cons, List.nodup_cons] at hnd
    rw [List.foldl_cons]
    rcases List.mem_cons.mp hmem with h1 | h1
    · have hq1 : q.1 = k := by rw [← h1]
      have hrest : ∀ r ∈ rest, r.1 ≠ k := by
        intro r hr hrk
        exact hnd.1 (hq1 ▸ hrk ▸ List.mem_map_of_mem Prod.fst hr)
      rw [foldl_awc_constant f rest _ k hrest, hq1, alGet_alInsert_self, ← h1]
    · have hq1 : q.1 ≠ k := by
        intro hq1
        exact hnd.1 (hq1 ▸ List.mem_map_of_mem Prod.fst h1)
      rw [ih _ k m hnd.2 h1, alGet_alInsert_ne _ _ _ (fun hk => hq1 hk.symm)]


/-- Keys accumulated in the mention totals come from the old accumulator or
from an agency mentioned in this segment. -/
theorem fold2_keys (sec : List Char) :
    ∀ (rel : List (String × AgencyData)) (am : List (String × Nat)) (k : String),
      k ∈ alKeys (rel.foldl (fun y p =>
        if 0 < section_mention_count p.2 sec
        then alInsert y p.1 (alGet y p.1 0 + section_mention_count p.2 sec) else y) am) →
      k ∈ alKeys am ∨ ∃ p, p ∈ rel ∧ p.1 = k ∧ 0 < section_mention_count p.2 sec := by
  intro rel
  induction rel with
  | nil => intro am k h; exact Or.inl h
  | cons p rest ih =>
    intro am k h
    rw [List.foldl_cons] at h
    by_cases hc : 0 < section_mention_count p.2 sec
    · rw [if_pos hc] at h
      rcases ih _ k h with h1 | h1
      · rcases alKeys_alInsert_subset h1 with h2 | h2
        · exact Or.inl h2
        · exact Or.inr ⟨p, List.mem_cons_self _ _, h2.symm, hc⟩
      · rcases h1 with ⟨q, hq, hqk, hqc⟩
        exact Or.inr ⟨q, List.mem_cons_of_mem _ hq, hqk, hqc⟩
    · rw [if_neg hc] at h
      rcases ih _ k h with h1 | h1
      · exact Or.inl h1
      · rcases h1 with ⟨q, hq, hqk, hqc⟩
        exact Or.inr ⟨q, List.mem_cons_of_mem _ hq, hqk, hqc⟩

/-- Keys of the mention totals after one segment come from before or from an
agency mentioned in the segment. -/
theorem processSection_mentions_keys (relevant : List (String × AgencyData))
    (st : AttrState) (sec : List Char) (k : String)
    (h : k ∈ alKeys (processSection relevant st sec).agency_mentions) :
    k ∈ alKeys st.agency_mentions ∨
      ∃ p, p ∈ relevant ∧ p.1 = k ∧ 0 < section_mention_count p.2 sec := by
  rw [processSection] at h
  by_cases h1 : pyStrip sec = []
  · rw [if_pos h1] at h
    exact Or.inl h
  · rw [if_neg h1] at h
    by_cases h2 : countWords sec = 0
    · simp only [h2, if_pos rfl] at h
      exact Or.inl h
    · simp only [if_neg h2] at h
      rw [processSection_fold_split sec relevant [] st.agency_mentions] at h
      exact fold2_keys sec relevant st.agency_mentions k h

/-- Keys of the mention totals after all segments belong to agencies with a
mention in some segment. -/
theorem attr_fold_keys (relevant : List (String × AgencyData)) :
    ∀ (sections : List (List Char)) (st0 : AttrState) (k : String),
      k ∈ alKeys ((sections.foldl (processSection relevant) st0).agency_mentions) →
      k ∈ alKeys st0.agency_mentions ∨
        ∃ sec, sec ∈ sections ∧
          ∃ p, p ∈ relevant ∧ p.1 = k ∧ 0 < section_mention_count p.2 sec := by
  intro sections
  induction sections with
  | nil => intro st0 k h; exact Or.inl h
  | cons s rest ih =>
    intro st0 k h
    rw [List.foldl_cons] at h
    rcases ih _ k h with h1 | h1
    · rcases processSection_mentions_keys relevant st0 s k h1 with h2 | h2
      · exact Or.inl h2
      · rcases h2 with ⟨p, hp, hpk, hpc⟩
        exact Or.inr ⟨s, List.mem_cons_self _ _, p, hp, hpk, hpc⟩
    · rcases h1 with ⟨sec, hsec, p, hp, hpk, hpc⟩
      exact Or.inr ⟨sec, List.mem_cons_of_mem _ hsec, p, hp, hpk, hpc⟩

/-- Every key of the final mapping is the display name of a mentioned
agency. -/
theorem final_counts_keys (agencies : List (String × AgencyData)) (awc : List (String × ℚ)) :
    ∀ (ms : List (String × Nat)) (fc : List (String × Int)) (d : String),
      d ∈ alKeys (ms.foldl (fun fc q =>
        if 0 < q.2 then
          alInsert fc (alGet agencies q.1 AgencyData.default).name (pyRound (alGet awc q.1 0))
        else fc) fc) →
      d ∈ alKeys fc ∨ ∃ q, q ∈ ms ∧ 0 < q.2 ∧ d = (alGet agencies q.1 AgencyData.default).name := by
  intro ms
  induction ms with
  | nil => intro fc d h; exact Or.inl h
  | cons q rest ih =>
    intro fc d h
    rw [List.foldl_cons] at h
    by_cases hc : 0 < q.2
    · rw [if_pos hc] at h
      rcases ih _ d h with h1 | h1
      · rcases alKeys_alInsert_subset h1 with h2 | h2
        · exact Or.inl h2
        · exact Or.inr ⟨q, List.mem_cons_self _ _, hc, h2⟩
      · rcases h1 with ⟨r, hr, hrc, hrd⟩
        exact Or.inr ⟨r, List.mem_cons_of_mem _ hr, hrc, hrd⟩
    · rw [if_neg hc] at h
      rcases ih _ d h with h1 | h1
      · exact Or.inl h1
      · rcases h1 with ⟨r, hr, hrc, hrd⟩
        exact Or.inr ⟨r, List.mem_cons_of_mem _ hr, hrc, hrd⟩

/-- Processing an agency subtree preserves distinctness of the roster map
keys. -/
theorem process_agency_keys_nodup :
    ∀ (a : AgencyJson) (m : List (String × AgencyData)),
      (alKeys m).Nodup → (alKeys (process_agency m a)).Nodup := by
  intro a
  induction a using AgencyJson.rosterInductionOn with
  | h nm sn dn refs cs ih =>
    intro m hm
    rw [process_agency]
    have hlist : ∀ (cs' : List AgencyJson),
        (∀ c ∈ cs', ∀ m', (alKeys m').Nodup → (alKeys (process_agency m' c)).Nodup) →
        ∀ m', (alKeys m').Nodup → (alKeys (process_agency_list m' cs')).Nodup := by
      intro cs'
      induction cs' with
      | nil =>
        intro _ m' hm'
        exact hm'
      | cons c rest ihr =>
        intro hall m' hm'
        rw [process_agency_list]
        exact ihr (fun e he => hall e (List.mem_cons_of_mem _ he)) _
          (hall c (List.mem_cons_self _ _) m' hm')
    exact hlist cs ih _ (alKeys_nodup_alInsert sn _ hm)

/-- The roster map built by get_agencies has distinct keys. -/
theorem get_agencies_keys_nodup (u : Upstream AgenciesData) :
    (alKeys (ECFRService.get_agencies u)).Nodup := by
  cases u with
  | failed m => simp [ECFRService.get_agencies, alKeys]
  | resp st body =>
    rw [ECFRService.get_agencies]
    by_cases hst : st < 400
    · rw [if_pos hst]
      have hlist : ∀ (cs : List AgencyJson) (m : List (String × AgencyData)),
          (alKeys m).Nodup → (alKeys (process_agency_list m cs)).Nodup := by
        intro cs
        induction cs with
        | nil =>
          intro m hm
          exact hm
        | cons c rest ihr =>
          intro m hm
          rw [process_agency_list]
          exact ihr _ (process_agency_keys_nodup c m hm)
      exact hlist body.agencies [] (by simp [alKeys])
    · rw [if_neg hst]
      simp [alKeys]


/-- Concrete agencies and segment for the attribution example: thirty words,
two whole-word mentions of the first agency and one of the second. -/
def agencyA : AgencyData :=
  ⟨["Alpha Agency", "alpha", "Alpha Agency"], "Alpha Agency", [⟨some 5⟩]⟩

/-- Second concrete agency. -/
def agencyB : AgencyData :=
  ⟨["Beta Agency", "beta", "Beta Agency"], "Beta Agency", [⟨some 5⟩]⟩

/-- Concrete thirty-word segment mentioning agencyA twice and agencyB once. -/
def sampleSegment : List Char :=
  ("alpha alpha beta" ++ String.join (List.replicate 27 " w")).data

/-- C3: in a processed segment (non-blank, positive word count) every
mentioned agency's accumulated word count grows by its mention share of the
segment's words, mentions over total mentions times word count; and every
display name in the returned mapping belongs to a rostered agency mentioned
in at least one segment, so agencies without any mention are omitted. -/
theorem C3_agency_attribution :
    (∀ (relevant : List (String × AgencyData)) (st : AttrState) (sec : List Char)
        (p : String × AgencyData),
      (relevant.map Prod.fst).Nodup → p ∈ relevant →
      pyStrip sec ≠ [] → countWords sec ≠ 0 →
      0 < section_mention_count p.2 sec →
      alGet (processSection relevant st sec).agency_word_counts p.1 0
        = alGet st.agency_word_counts p.1 0
          + (section_mention_count p.2 sec : ℚ)
            / (total_section_mentions relevant sec : ℚ) * (countWords sec : ℚ))
    ∧ (∀ (u : Upstream AgenciesData) (n : Int) (content : List Char) (d : String),
      d ∈ alKeys (ECFRService.get_agency_word_counts u n content) →
      ∃ p, p ∈ ECFRService.get_agencies u ∧ p.2.name = d ∧
        ∃ sec, sec ∈ splitSections content ∧ 0 < section_mention_count p.2 sec) := by
  constructor
  · intro relevant st sec p hnd hp hstrip hwords hmc
    rw [processSection, if_neg hstrip]
    simp only [if_neg hwords]
    rw [processSection_fold_split sec relevant [] st.agency_mentions]
    have hdisj : ∀ q ∈ relevant, q.1 ∉ alKeys ([] : List (String × Nat)) := by
      intro q _ hq
      simp [alKeys] at hq
    rw [fold1_eq sec relevant [] hnd hdisj]
    have hmem : (p.1, section_mention_count p.2 sec) ∈ relevant.filterMap (mentionPair sec) :=
      List.mem_filterMap.mpr ⟨p, hp, by rw [mentionPair, if_pos hmc]⟩
    have hne : ([] : List (String × Nat)) ++ relevant.filterMap (mentionPair sec) ≠ [] := by
      rw [List.nil_append]
      exact List.ne_nil_of_mem hmem
    rw [if_neg hne]
    simp only [List.nil_append]
    rw [foldl_awc_get
      (fun q => (q.2 : ℚ) / (((relevant.filterMap (mentionPair sec)).map Prod.snd).sum : ℚ)
        * (countWords sec : ℚ))
      (relevant.filterMap (mentionPair sec)) st.agency_word_counts p.1
      (section_mention_count p.2 sec)
      ((hnd.sublist (mentionPair_keys_sublist sec relevant)))
      hmem]
    rfl
  · intro u n content d hd
    rw [ECFRService.get_agency_word_counts] at hd
    by_cases hempty : content = [] ∨ ECFRService.get_agencies u = []
    · rw [if_pos hempty] at hd
      simp [alKeys] at hd
    · rw [if_neg hempty] at hd
      rcases final_counts_keys (ECFRService.get_agencies u) _ _ [] d hd with h1 | h1
      · simp [alKeys] at h1
      · rcases h1 with ⟨q, hq, hqpos, hqd⟩
        have hqkey : q.1 ∈ alKeys (((splitSections content).foldl
            (processSection ((ECFRService.get_agencies u).filter
              (fun p => p.2.cfr_references.any (fun r => r.title == some n)))) ⟨[], []⟩).agency_mentions) :=
          List.mem_map_of_mem Prod.fst hq
        rcases attr_fold_keys _ (splitSections content) ⟨[], []⟩ q.1 hqkey with h2 | h2
        · simp [alKeys] at h2
        · rcases h2 with ⟨sec, hsec, pr, hpr, hprk, hprc⟩
          have hpra : pr ∈ ECFRService.get_agencies u := List.mem_of_mem_filter hpr
          refine ⟨pr, hpra, ?_, sec, hsec, hprc⟩
          rw [hqd, ← hprk,
            alGet_of_mem_nodup AgencyData.default (get_agencies_keys_nodup u)
              (show (pr.1, pr.2) ∈ _ from hpra)]


/-- Witness for C3: the thirty-word segment with mention counts two and one
is attributed twenty words to the first agency and ten to the second. -/
theorem C3_witness :
    ((([("A", agencyA), ("B", agencyB)]).map Prod.fst).Nodup
      ∧ ("A", agencyA) ∈ [("A", agencyA), ("B", agencyB)]
      ∧ pyStrip sampleSegment ≠ [] ∧ countWords sampleSegment = 30
      ∧ section_mention_count agencyA sampleSegment = 2
      ∧ section_mention_count agencyB sampleSegment = 1
      ∧ total_section_mentions [("A", agencyA), ("B", agencyB)] sampleSegment = 3)
    ∧ alGet (processSection [("A", agencyA), ("B", agencyB)] ⟨[], []⟩
        sampleSegment).agency_word_counts "A" 0 = 20
    ∧ alGet (processSection [("A", agencyA), ("B", agencyB)] ⟨[], []⟩
        sampleSegment).agency_word_counts "B" 0 = 10 := by
  have hA := C3_agency_attribution.1 [("A", agencyA), ("B", agencyB)] ⟨[], []⟩
    sampleSegment ("A", agencyA) (by decide) (by decide) (by decide) (by decide) (by decide)
  have hB := C3_agency_attribution.1 [("A", agencyA), ("B", agencyB)] ⟨[], []⟩
    sampleSegment ("B", agencyB) (by decide) (by decide) (by decide) (by decide) (by decide)
  refine ⟨⟨by decide, by decide, by decide, by decide, by decide, by decide, by decide⟩, ?_, ?_⟩
  · rw [hA, show section_mention_count ("A", agencyA).2 sampleSegment = 2 from by decide,
      show total_section_mentions [("A", agencyA), ("B", agencyB)] sampleSegment = 3 from by decide,
      show countWords sampleSegment = 30 from by decide]
    show alGet [] "A" 0 + (2 : ℚ) / (3 : ℚ) * (30 : ℚ) = 20
    rw [show alGet ([] : List (String × ℚ)) "A" 0 = 0 from rfl]
    norm_num
  · rw [hB, show section_mention_count ("B", agencyB).2 sampleSegment = 1 from by decide,
      show total_section_mentions [("A", agencyA), ("B", agencyB)] sampleSegment = 3 from by decide,
      show countWords sampleSegment = 30 from by decide]
    show alGet [] "B" 0 + (1 : ℚ) / (3 : ℚ) * (30 : ℚ) = 10
    rw [show alGet ([] : List (String × ℚ)) "B" 0 = 0 from rfl]
    norm_num


/-- Code-point lexicographic comparison of character lists, the order Python
uses to compare strings. -/
def charListLe : List Char → List Char → Bool
  | [], _ => true
  | _ :: _, [] => false
  | a :: as, b :: bs =>
    if a.toNat = b.toNat then charListLe as bs else decide (a.toNat < b.toNat)

/-- Python string comparison (code-point lexicographic). -/
def pyStrLe (s t : String) : Bool := charListLe s.data t.data

/-- The comparison is total. -/
theorem charListLe_total : ∀ x y, charListLe x y = true ∨ charListLe y x = true := by
  intro x
  induction x with
  | nil => intro y; exact Or.inl rfl
  | cons a as ih =>
    intro y
    cases y with
    | nil => exact Or.inr rfl
    | cons b bs =>
      rw [charListLe, charListLe]
      by_cases hab : a.toNat = b.toNat
      · rw [if_pos hab, if_pos hab.symm]
        exact ih bs
      · rw [if_neg hab, if_neg (fun h => hab h.symm)]
        rcases Nat.lt_or_ge a.toNat b.toNat with h | h
        · exact Or.inl (by simpa using h)
        · exact Or.inr (by simp; omega)

/-- The comparison is transitive. -/
theorem charListLe_trans :
    ∀ x y z, charListLe x y = true → charListLe y z = true → charListLe x z = true := by
  intro x
  induction x with
  | nil => intro y z _ _; rfl
  | cons a as ih =>
    intro y z h1 h2
    cases y with
    | nil => exact absurd h1 (by simp [charListLe])
    | cons b bs =>
      cases z with
      | nil => exact absurd h2 (by simp [charListLe])
      | cons c cs =>
        rw [charListLe] at h1 h2 ⊢
        by_cases hab : a.toNat = b.toNat
        · rw [if_pos hab] at h1
          by_cases hbc : b.toNat = c.toNat
          · rw [if_pos hbc] at h2
            rw [if_pos (hab.trans hbc)]
            exact ih bs cs h1 h2
          · rw [if_neg hbc] at h2
            simp only [decide_eq_true_eq] at h2
            rw [if_neg (by omega), decide_eq_true (by omega)]
        · rw [if_neg hab] at h1
          simp only [decide_eq_true_eq] at h1
          by_cases hbc : b.toNat = c.toNat
          · rw [if_neg (by omega), decide_eq_true (by omega)]
          · rw [if_neg hbc] at h2
            simp only [decide_eq_true_eq] at h2
            rw [if_neg (by omega), decide_eq_true (by omega)]

/-- One entry of the titles list. -/
structure TitleInfo : Type where
  number : Int
  name : String
  latest_issue_date : Option String
  version_dates : List String
deriving DecidableEq, Repr

/-- Body of the titles endpoint. -/
structure TitlesData : Type where
  titles : List TitleInfo
deriving DecidableEq, Repr

/-- Body of the versions endpoint; the analysis only checks that the fetch
succeeded. -/
structure VersionsData : Type where
  content_versions : List String
deriving DecidableEq, Repr

/-- One entry of a correction's cfr_references list. -/
structure CorrRef : Type where
  cfr_reference : Option String
deriving DecidableEq, Repr

/-- One raw correction of the corrections endpoint; none fields model absent
keys. -/
structure CorrectionJson : Type where
  error_corrected : Option String
  corrective_action : Option String
  cfr_references : Option (List CorrRef)
  fr_citation : Option String
  error_occurred : Option String
deriving DecidableEq, Repr

/-- Body of the corrections endpoint. -/
structure CorrectionsData : Type where
  ecfr_corrections : List CorrectionJson
deriving DecidableEq, Repr

/-- A correction formatted for the front-end. -/
structure Correction : Type where
  correction_date : Option String
  correction_text : String
  fr_citation : Option String
  error_occurred : Option String
deriving DecidableEq, Repr

/-- Model of the Python str() applied to an optional string, as interpolated
by an f-string: an absent value renders as the word None. -/
def pyStrOpt (o : Option String) : String := o.getD "None"

/-- Formats one correction; the none result models the IndexError raised by
indexing an empty cfr_references list, which the enclosing handler turns
into an empty overall result. An absent cfr_references key defaults to one
empty reference. -/
def formatCorrection (c : CorrectionJson) : Option Correction :=
  match c.cfr_references with
  | none =>
    some ⟨c.error_corrected, pyStrOpt c.corrective_action ++ " - " ++ "",
      c.fr_citation, c.error_occurred⟩
  | some [] => none
  | some (r :: _) =>
    some ⟨c.error_corrected,
      pyStrOpt c.corrective_action ++ " - " ++ (r.cfr_reference.getD ""),
      c.fr_citation, c.error_occurred⟩

/-- Model of ECFRService.get_all_titles: raises a descriptive failure on a
transport error or a non-success status, mirroring raise_for_status plus the
re-raise in the handler. -/
def ECFRService.get_all_titles : Upstream TitlesData → Except String TitlesData
  | .resp st body =>
    if 400 ≤ st then .error ("Failed to fetch titles: HTTP error " ++ toString st)
    else .ok body
  | .failed m => .error ("Failed to fetch titles: " ++ m)

/-- Model of ECFRService.get_title_versions: raises a descriptive failure on
a transport error or a non-success status. -/
def ECFRService.get_title_versions : Upstream VersionsData → Except String VersionsData
  | .resp st body =>
    if 400 ≤ st then .error ("Failed to fetch title versions: HTTP error " ++ toString st)
    else .ok body
  | .failed m => .error ("Failed to fetch title versions: " ++ m)

/-- Model of ECFRService.get_title_corrections: degrade to the empty list on
any failure; on success sort by correction date, most recent first, and
format. -/
def ECFRService.get_title_corrections : Upstream CorrectionsData → List Correction
  | .failed _ => []
  | .resp st body =>
    if st < 400 then
      let sorted := body.ecfr_corrections.insertionSort
        (fun a b => pyStrLe (b.error_corrected.getD "") (a.error_corrected.getD "") = true)
      match sorted.mapM formatCorrection with
      | some l => l
      | none => []
    else []

/-- Deterministic upstream environment for one analysis: the same URL yields
the same outcome. structAt is the structure endpoint keyed by title number
and date (its body an optional node, null documents allowed); cutoff models
the lookback date computed from the wall clock in get_historical_changes. -/
structure Env : Type where
  titles : Upstream TitlesData
  structAt : Int → String → Upstream (Option StructureNode)
  versions : Int → Upstream VersionsData
  corrections : Int → Upstream CorrectionsData
  agencies : Upstream AgenciesData
  cutoff : String

/-- Model of ECFRService.get_latest_update_date. -/
def ECFRService.get_latest_update_date (env : Env) (title_number : Int) : Option String :=
  match env.titles with
  | .failed _ => none
  | .resp st body =>
    if st < 400 then
      match body.titles.find? (fun t => t.number = title_number) with
      | some ti => ti.latest_issue_date
      | none => none
    else none

/-- Model of ECFRService.get_title_structure: any failure along the way
degrades to none; a successful fetch is reduced with parse_structure. -/
def ECFRService.get_title_structure (env : Env) (title_number : Int)
    (date_str : Option String) : Option ParsedStructure :=
  match env.titles with
  | .failed _ => none
  | .resp st body =>
    if st < 400 then
      match body.titles.find? (fun t => t.number = title_number) with
      | none => none
      | some ti =>
        let use_date : Option String :=
          match date_str with
          | some s => if s = "" then ti.latest_issue_date else some s
          | none => ti.latest_issue_date
        match use_date with
        | none => none
        | some d =>
          if d = "" then none
          else
            match env.structAt title_number d with
            | .failed _ => none
            | .resp st2 b => if st2 < 400 then some (parse_structure b) else none
    else none

mutual

/-- Text fields collected from one node in document order: label,
label_description, text, content, then the children. -/
def extract_text_node : StructureNode → List String
  | .mk _ _ ld lb tx ct _ cs => [lb, ld, tx, ct] ++ extract_text_list cs

/-- Text collected from a forest. -/
def extract_text_list : List StructureNode → List String
  | [] => []
  | c :: cs => extract_text_node c ++ extract_text_list cs

end

/-- Model of the inner extract_text of get_full_title_content; a null
document contributes nothing (the isinstance check). -/
def extract_text : Option StructureNode → List String
  | none => []
  | some n => extract_text_node n

/-- Model of ECFRService.get_full_title_content: fetch the latest structure
document, join its non-empty text fields with single spaces, then apply the
normalization pipeline; any failure degrades to the empty string. -/
def ECFRService.get_full_title_content (env : Env) (title_number : Int) : List Char :=
  match env.titles with
  | .failed _ => []
  | .resp st body =>
    if st < 400 then
      match body.titles.find? (fun t => t.number = title_number) with
      | none => []
      | some ti =>
        match ti.latest_issue_date with
        | none => []
        | some d =>
          if d = "" then []
          else
            match env.structAt title_number d with
            | .failed _ => []
            | .resp st2 b =>
              if st2 < 400 then
                cleanContent ((String.intercalate " "
                  ((extract_text b).filter (fun s => s ≠ ""))).data)
              else []
    else []

/-- One sampled historical snapshot. -/
structure HistoricalPoint : Type where
  date : String
  total_sections : Nat
  total_parts : Nat
deriving DecidableEq, Repr

/-- The three parallel series of the historical aggregator. -/
structure HistoricalData : Type where
  dates : List String
  section_counts : List Nat
  part_counts : List Nat
deriving DecidableEq, Repr

/-- Model of ECFRService.get_historical_changes: filter the title's version
dates by the lookback cutoff, fetch and reduce each snapshot with the
reserved-blind counters, skip failures silently, sort ascending by date and
return the three parallel series. -/
def ECFRService.get_historical_changes (env : Env) (title_number : Int) : HistoricalData :=
  match env.titles with
  | .failed _ => ⟨[], [], []⟩
  | .resp st body =>
    if st < 400 then
      match body.titles.find? (fun t => t.number = title_number) with
      | none => ⟨[], [], []⟩
      | some ti =>
        let relevant_dates := ti.version_dates.filter (fun d => pyStrLe env.cutoff d)
        let historical_data := relevant_dates.filterMap (fun d =>
          match env.structAt title_number d with
          | .failed _ => none
          | .resp st2 b =>
            if st2 < 400 then
              some (⟨d, ECFRService.count_sections b, ECFRService.count_parts b⟩ :
                HistoricalPoint)
            else none)
        let sorted := historical_data.insertionSort
          (fun x y => pyStrLe x.date y.date = true)
        ⟨sorted.map HistoricalPoint.date, sorted.map HistoricalPoint.total_sections,
          sorted.map HistoricalPoint.total_parts⟩
    else ⟨[], [], []⟩

/-- Metrics block of a title analysis. -/
structure Metrics : Type where
  word_count : Nat
  average_words_per_section : ℚ
  agency_word_counts : List (String × Int)
deriving DecidableEq, Repr

/-- Structure block of a title analysis. -/
structure StructureInfo : Type where
  total_parts : Nat
  total_sections : Nat
  parts : List PartEntry
deriving DecidableEq, Repr

/-- Versions block of a title analysis. -/
structure VersionsInfo : Type where
  total_versions : Nat
  latest_update : Option String
deriving DecidableEq, Repr

/-- One recent correction of a title analysis. -/
structure RecentCorrection : Type where
  date : Option String
  description : String
deriving DecidableEq, Repr

/-- Corrections block of a title analysis. -/
structure CorrectionsInfo : Type where
  total_corrections : Nat
  recent_corrections : List RecentCorrection
deriving DecidableEq, Repr

/-- The aggregate report of analyze_title; error is none on success. -/
structure TitleAnalysis : Type where
  title_number : Int
  name : String
  structure_ : StructureInfo
  metrics : Metrics
  historical_data : HistoricalData
  versions : VersionsInfo
  corrections : CorrectionsInfo
  error : Option String
deriving DecidableEq, Repr

/-- The fully populated zero-valued report returned when the analysis
sequence fails, carrying the failure description. -/
def errorAnalysis (title_number : Int) (msg : String) : TitleAnalysis :=
  { title_number := title_number
    name := "Title " ++ toString title_number
    structure_ := ⟨0, 0, []⟩
    metrics := ⟨0, 0, []⟩
    historical_data := ⟨[], [], []⟩
    versions := ⟨0, none⟩
    corrections := ⟨0, []⟩
    error := some msg }

/-- Model of ECFRService.analyze_title. The embedding is total: every failure
the Python code catches, a missing structure or a versions fetch that raises,
is folded into the zero-valued error report, so a TitleAnalysis is returned
in all cases and nothing propagates past this boundary. -/
def ECFRService.analyze_title (env : Env) (title_number : Int) : TitleAnalysis :=
  let latest_date := ECFRService.get_latest_update_date env title_number
  match ECFRService.get_title_structure env title_number none with
  | none => errorAnalysis title_number "Could not fetch title structure"
  | some structure_ =>
    let content := ECFRService.get_full_title_content env title_number
    let word_count := if content ≠ [] then countWords content else 0
    let avg_words_per_section := average_words_per_section word_count structure_.total_sections
    let agency_counts := ECFRService.get_agency_word_counts env.agencies title_number content
    match ECFRService.get_title_versions (env.versions title_number) with
    | .error e => errorAnalysis title_number e
    | .ok _ =>
      let corrections := ECFRService.get_title_corrections (env.corrections title_number)
      let historical_data := ECFRService.get_historical_changes env title_number
      { title_number := title_number
        name := structure_.name
        structure_ := ⟨structure_.total_parts, structure_.total_sections, structure_.parts⟩
        metrics := ⟨word_count, avg_words_per_section, agency_counts⟩
        historical_data := historical_data
        versions := ⟨historical_data.dates.length, latest_date⟩
        corrections := ⟨corrections.length,
          (corrections.take 5).map (fun c => ⟨c.correction_date, c.correction_text⟩)⟩
        error := none }


/-- A string extended on the right stays non-empty. -/
theorem append_ne_empty_left {s : String} (t : String) (h : s ≠ "") : (s ++ t) ≠ "" := by
  intro hc
  have hd := congrArg String.data hc
  rw [String.data_append s t] at hd
  have hnil : s.data ++ t.data = [] := by simpa using hd
  have hs : s.data = [] := (List.append_eq_nil.mp hnil).1
  apply h
  cases s
  simp_all

/-- C9: the divisor of the average computation is the Python expression
total_sections or 1, which equals max of total_sections and 1, is never
zero, and for zero sections the average equals the word count divided by
one. -/
theorem C9_average_guard (word_count total_sections : Nat) :
    (pyOrOne total_sections = max total_sections 1)
    ∧ ((pyOrOne total_sections : ℚ) ≠ 0)
    ∧ average_words_per_section word_count total_sections
        = round2 ((word_count : ℚ) / ((max total_sections 1 : Nat) : ℚ))
    ∧ (total_sections = 0 →
        average_words_per_section word_count total_sections
          = round2 ((word_count : ℚ) / 1)) := by
  have h1 : pyOrOne total_sections = max total_sections 1 := by
    rw [pyOrOne]
    by_cases h : total_sections = 0
    · simp [h]
    · rw [if_neg h]
      omega
  refine ⟨h1, ?_, ?_, ?_⟩
  · rw [h1]
    exact Nat.cast_ne_zero.mpr (by omega)
  · rw [average_words_per_section, h1]
  · intro h
    subst h
    rw [average_words_per_section]
    norm_num [pyOrOne]

/-- Witness for C9 at word count seven and zero sections. -/
theorem C9_witness :
    (0 : Nat) = 0 ∧ average_words_per_section 7 0 = round2 ((7 : ℚ) / 1) :=
  ⟨rfl, (C9_average_guard 7 0).2.2.2 rfl⟩


/-- C4: the error policy is asymmetric. The titles and versions fetches turn
a transport failure or non-success status into a raised descriptive failure,
while the structure, full-content, corrections and agencies fetches degrade
to none, the empty string, the empty list and the empty mapping. -/
theorem C4_error_policy :
    (∀ u : Upstream TitlesData, upstreamFails u →
      ∃ e, ECFRService.get_all_titles u = .error e ∧ e ≠ "")
    ∧ (∀ u : Upstream VersionsData, upstreamFails u →
      ∃ e, ECFRService.get_title_versions u = .error e ∧ e ≠ "")
    ∧ (∀ (env : Env) (n : Int) (ds : Option String),
      (∀ d, upstreamFails (env.structAt n d)) →
      ECFRService.get_title_structure env n ds = none)
    ∧ (∀ (env : Env) (n : Int),
      (∀ d, upstreamFails (env.structAt n d)) →
      ECFRService.get_full_title_content env n = [])
    ∧ (∀ u : Upstream CorrectionsData, upstreamFails u →
      ECFRService.get_title_corrections u = [])
    ∧ (∀ u : Upstream AgenciesData, upstreamFails u →
      ECFRService.get_agencies u = []) := by
  refine ⟨?_, ?_, ?_, ?_, ?_, ?_⟩
  · intro u hu
    cases u with
    | resp st body =>
      have hst : 400 ≤ st := hu
      exact ⟨_, by rw [ECFRService.get_all_titles, if_pos hst],
        append_ne_empty_left _ (by decide)⟩
    | failed m =>
      exact ⟨_, rfl, append_ne_empty_left _ (by decide)⟩
  · intro u hu
    cases u with
    | resp st body =>
      have hst : 400 ≤ st := hu
      exact ⟨_, by rw [ECFRService.get_title_versions, if_pos hst],
        append_ne_empty_left _ (by decide)⟩
    | failed m =>
      exact ⟨_, rfl, append_ne_empty_left _ (by decide)⟩
  · intro env n ds hfail
    rw [ECFRService.get_title_structure]
    split
    · rfl
    next st body heq =>
      split
      · split
        · rfl
        next ti hfind =>
          dsimp only
          split
          · rfl
          next d hud =>
            split
            · rfl
            · split
              · rfl
              next st2 b heq2 =>
                have hst2 : 400 ≤ st2 := by
                  have hf := hfail d
                  rw [heq2] at hf
                  exact hf
                rw [if_neg (by omega)]
      · rfl
  · intro env n hfail
    rw [ECFRService.get_full_title_content]
    split
    · rfl
    next st body heq =>
      split
      · split
        · rfl
        next ti hfind =>
          split
          · rfl
          next d hld =>
            split
            · rfl
            · split
              · rfl
              next st2 b heq2 =>
                have hst2 : 400 ≤ st2 := by
                  have hf := hfail d
                  rw [heq2] at hf
                  exact hf
                rw [if_neg (by omega)]
      · rfl
  · intro u hu
    cases u with
    | resp st body =>
      have hst : 400 ≤ st := hu
      rw [ECFRService.get_title_corrections, if_neg (by omega)]
    | failed m => rfl
  · intro u hu
    cases u with
    | resp st body =>
      have hst : 400 ≤ st := hu
      rw [ECFRService.get_agencies, if_neg (by omega)]
    | failed m => rfl

/-- Concrete all-failing upstream environment. -/
def envFail : Env :=
  ⟨.failed "connection refused", fun _ _ => .failed "connection refused",
   fun _ => .failed "connection refused", fun _ => .failed "connection refused",
   .failed "connection refused", "2020-01-01"⟩

/-- Witness for C4 on the all-failing environment. -/
theorem C4_witness :
    (∃ e, ECFRService.get_all_titles envFail.titles = .error e ∧ e ≠ "")
    ∧ (∃ e, ECFRService.get_title_versions (envFail.versions 7) = .error e ∧ e ≠ "")
    ∧ ECFRService.get_title_structure envFail 7 none = none
    ∧ ECFRService.get_full_title_content envFail 7 = []
    ∧ ECFRService.get_title_corrections (envFail.corrections 7) = []
    ∧ ECFRService.get_agencies envFail.agencies = [] :=
  ⟨C4_error_policy.1 envFail.titles trivial,
   C4_error_policy.2.1 (envFail.versions 7) trivial,
   C4_error_policy.2.2.1 envFail 7 none (fun _ => trivial),
   C4_error_policy.2.2.2.1 envFail 7 (fun _ => trivial),
   C4_error_policy.2.2.2.2.1 (envFail.corrections 7) trivial,
   C4_error_policy.2.2.2.2.2 envFail.agencies trivial⟩


/-- The date order used to sort historical points is total. -/
instance : IsTotal HistoricalPoint (fun x y => pyStrLe x.date y.date = true) :=
  ⟨fun a b => charListLe_total a.date.data b.date.data⟩

/-- The date order used to sort historical points is transitive. -/
instance : IsTrans HistoricalPoint (fun x y => pyStrLe x.date y.date = true) :=
  ⟨fun a b c hab hbc => charListLe_trans a.date.data b.date.data c.date.data hab hbc⟩

/-- The historical aggregator returns the three projections of one sorted
list of points, each point recording a successful snapshot fetch at its
date. -/
theorem historical_result_spec (env : Env) (n : Int) :
    ∃ pts : List HistoricalPoint,
      List.Sorted (fun x y => pyStrLe x.date y.date = true) pts
      ∧ ECFRService.get_historical_changes env n
          = ⟨pts.map HistoricalPoint.date, pts.map HistoricalPoint.total_sections,
             pts.map HistoricalPoint.total_parts⟩
      ∧ ∀ p ∈ pts, ∃ st2 b, env.structAt n p.date = .resp st2 b ∧ st2 < 400
          ∧ p.total_sections = ECFRService.count_sections b
          ∧ p.total_parts = ECFRService.count_parts b := by
  rw [ECFRService.get_historical_changes]
  split
  · exact ⟨[], List.sorted_nil, rfl, by simp⟩
  next st body heq =>
    split
    · split
      · exact ⟨[], List.sorted_nil, rfl, by simp⟩
      next ti hfind =>
        dsimp only
        refine ⟨_, List.sorted_insertionSort _ _, rfl, ?_⟩
        intro p hp
        have hmem : p ∈ (ti.version_dates.filter (fun d => pyStrLe env.cutoff d)).filterMap
            (fun d =>
              match env.structAt n d with
              | .failed _ => none
              | .resp st2 b =>
                if st2 < 400 then
                  some (⟨d, ECFRService.count_sections b, ECFRService.count_parts b⟩ :
                    HistoricalPoint)
                else none) :=
          ((List.perm_insertionSort _ _).mem_iff).mp hp
        rcases List.mem_filterMap.mp hmem with ⟨d, _, hd⟩
        rcases heq2 : env.structAt n d with ⟨st2, b⟩ | m
        · rw [heq2] at hd
          dsimp only at hd
          by_cases hst2 : st2 < 400
          · rw [if_pos hst2] at hd
            have hpd : p.date = d := by rw [← Option.some_inj.mp hd]
            refine ⟨st2, b, ?_, hst2, ?_, ?_⟩
            · rw [hpd, heq2]
            · rw [← Option.some_inj.mp hd]
            · rw [← Option.some_inj.mp hd]
          · rw [if_neg hst2] at hd
            simp at hd
        · rw [heq2] at hd
          simp at hd
    · exact ⟨[], List.sorted_nil, rfl, by simp⟩

/-- C7: the three series of the historical aggregator have equal lengths,
the dates are sorted ascending in the code-point order Python sorts strings
by, and the counts are parallel: the counts at position i are the
reserved-blind section and part counts of the snapshot successfully fetched
at the date at position i. -/
theorem C7_historical_series (env : Env) (n : Int) :
    ((ECFRService.get_historical_changes env n).dates.length
        = (ECFRService.get_historical_changes env n).section_counts.length)
    ∧ ((ECFRService.get_historical_changes env n).dates.length
        = (ECFRService.get_historical_changes env n).part_counts.length)
    ∧ (ECFRService.get_historical_changes env n).dates.Pairwise
        (fun a b => pyStrLe a b = true)
    ∧ (∀ i (h1 : i < (ECFRService.get_historical_changes env n).dates.length)
        (h2 : i < (ECFRService.get_historical_changes env n).section_counts.length)
        (h3 : i < (ECFRService.get_historical_changes env n).part_counts.length),
        ∃ st2 b,
          env.structAt n ((ECFRService.get_historical_changes env n).dates.get ⟨i, h1⟩)
              = .resp st2 b
            ∧ st2 < 400
            ∧ (ECFRService.get_historical_changes env n).section_counts.get ⟨i, h2⟩
              = ECFRService.count_sections b
            ∧ (ECFRService.get_historical_changes env n).part_counts.get ⟨i, h3⟩
              = ECFRService.count_parts b) := by
  rcases historical_result_spec env n with ⟨pts, hsorted, heq, hpts⟩
  rw [heq]
  refine ⟨by simp, by simp, ?_, ?_⟩
  · exact List.pairwise_map.mpr hsorted
  · intro i h1 h2 h3
    have hip : i < pts.length := by simpa using h1
    rcases hpts (pts.get ⟨i, hip⟩) (pts.get_mem i hip) with ⟨st2, b, hresp, hst2, hs, hpcount⟩
    refine ⟨st2, b, ?_, hst2, ?_, ?_⟩
    · show env.structAt n ((pts.map HistoricalPoint.date).get ⟨i, by simpa using h1⟩)
          = Upstream.resp st2 b
      rw [List.get_map]
      exact hresp
    · show (pts.map HistoricalPoint.total_sections).get ⟨i, by simpa using h2⟩
          = ECFRService.count_sections b
      rw [List.get_map]
      exact hs
    · show (pts.map HistoricalPoint.total_parts).get ⟨i, by simpa using h3⟩
          = ECFRService.count_parts b
      rw [List.get_map]
      exact hpcount


/-- Concrete environment with two version dates listed newest first. -/
def env7 : Env :=
  ⟨.resp 200 ⟨[⟨7, "Sample", some "2024-01-05", ["2024-01-02", "2024-01-01"]⟩]⟩,
   fun _ _ => .resp 200 (some sampleTree),
   fun _ => .resp 200 ⟨[]⟩,
   fun _ => .resp 200 ⟨[]⟩,
   .resp 200 ⟨[]⟩,
   "2020-01-01"⟩

/-- Witness for C7: on the concrete environment the series are parallel and
the dates come out ascending although the upstream listed them descending. -/
theorem C7_witness :
    (ECFRService.get_historical_changes env7 7).dates = ["2024-01-01", "2024-01-02"]
    ∧ (ECFRService.get_historical_changes env7 7).section_counts = [2, 2]
    ∧ (0 : Nat) < (ECFRService.get_historical_changes env7 7).dates.length
    ∧ ∃ st2 b,
        env7.structAt 7 ((ECFRService.get_historical_changes env7 7).dates.get
            ⟨0, by decide⟩) = .resp st2 b
          ∧ st2 < 400
          ∧ (ECFRService.get_historical_changes env7 7).section_counts.get ⟨0, by decide⟩
            = ECFRService.count_sections b
          ∧ (ECFRService.get_historical_changes env7 7).part_counts.get ⟨0, by decide⟩
            = ECFRService.count_parts b :=
  ⟨by decide, by decide, by decide,
    (C7_historical_series env7 7).2.2.2 0 (by decide) (by decide) (by decide)⟩

/-- Versions failures carry a non-empty message. -/
theorem get_title_versions_error_ne {u : Upstream VersionsData} {e : String}
    (h : ECFRService.get_title_versions u = .error e) : e ≠ "" := by
  cases u with
  | resp st body =>
    rw [ECFRService.get_title_versions] at h
    by_cases hst : 400 ≤ st
    · rw [if_pos hst] at h
      cases h
      exact append_ne_empty_left _ (by decide)
    · rw [if_neg hst] at h
      cases h
  | failed m =>
    cases h
    exact append_ne_empty_left _ (by decide)

/-- C1: analyze_title is total, and on an unrecovered failure, the structure
fetch coming back empty or the versions fetch raising, it returns the fully
populated zero-valued report: the given title number, the placeholder name
Title followed by the number, zero totals, empty parts, zeroed metrics,
empty historical and corrections data, and a non-empty error string. -/
theorem C1_analyze_title_failure (env : Env) (n : Int) :
    (ECFRService.get_title_structure env n none = none →
      ECFRService.analyze_title env n = errorAnalysis n "Could not fetch title structure")
    ∧ (∀ e, ECFRService.get_title_versions (env.versions n) = .error e →
        ECFRService.analyze_title env n = errorAnalysis n e
          ∨ ECFRService.analyze_title env n
              = errorAnalysis n "Could not fetch title structure")
    ∧ (∀ msg, errorAnalysis n msg =
        { title_number := n
          name := "Title " ++ toString n
          structure_ := ⟨0, 0, []⟩
          metrics := ⟨0, 0, []⟩
          historical_data := ⟨[], [], []⟩
          versions := ⟨0, none⟩
          corrections := ⟨0, []⟩
          error := some msg })
    ∧ (∀ e, ECFRService.get_title_versions (env.versions n) = .error e → e ≠ "")
    ∧ ("Could not fetch title structure" ≠ "") := by
  refine ⟨?_, ?_, fun msg => rfl, fun e he => get_title_versions_error_ne he, by decide⟩
  · intro h
    rw [ECFRService.analyze_title, h]
  · intro e he
    rw [ECFRService.analyze_title]
    cases hs : ECFRService.get_title_structure env n none with
    | none => exact Or.inr rfl
    | some ps =>
      rw [he]
      exact Or.inl rfl


/-- Concrete environment for title 42 whose structure endpoint always fails. -/
def env42 : Env :=
  ⟨.resp 200 ⟨[⟨42, "Some Title", some "2024-01-05", ["2024-01-02"]⟩]⟩,
   fun _ _ => .failed "connection reset",
   fun _ => .resp 200 ⟨[]⟩,
   fun _ => .resp 200 ⟨[]⟩,
   .resp 200 ⟨[]⟩,
   "2020-01-01"⟩

/-- Witness for C1, the end-to-end failure test of the specification: with
the structure fetch failing, analyzing title 42 yields the zero-valued
report with title number 42, name Title 42, zero sections and a non-empty
error. -/
theorem C1_witness :
    ECFRService.get_title_structure env42 42 none = none
    ∧ ECFRService.analyze_title env42 42
        = errorAnalysis 42 "Could not fetch title structure"
    ∧ (ECFRService.analyze_title env42 42).title_number = 42
    ∧ (ECFRService.analyze_title env42 42).name = "Title 42"
    ∧ (ECFRService.analyze_title env42 42).structure_.total_sections = 0
    ∧ (ECFRService.analyze_title env42 42).error = some "Could not fetch title structure"
    ∧ "Could not fetch title structure" ≠ "" := by
  have h := (C1_analyze_title_failure env42 42).1 (by decide)
  refine ⟨by decide, h, ?_, ?_, ?_, ?_, by decide⟩
  · rw [h]
    decide
  · rw [h]
    decide
  · rw [h]
    decide
  · rw [h]
    decide

end ECFR
